import Mathlib

/-
  Verification development for two components of the GPT lattice toolkit:

  * the FGCR inverter, lib/gpt/algorithms/inverter/fgcr.py
    (back substitution, restart, breakdown handling, convergence target);
  * the multigrid coarsening engine, lib/gpt/core/coarse/__init__.py
    (boundary masks, link projection, backward-link communication).

  Modelling conventions (shallow embedding of the Python code):

  * Machine floating point numbers are modelled by exact rationals.  The
    complex entries of the coarse link matrices are modelled by Gaussian
    rationals (structure QC below) so that conjugation is meaningful; the
    values handled by the solver are modelled by plain rationals, since no
    claim about the solver involves conjugation.
  * A distributed lattice field is a function from sites to values.  The
    solver is modelled over finite vectors (Fin n -> Q).
  * Python runtime failures (assert, IndexError, TypeError) are modelled by
    Option / Except.
  * The expression mmp2 ** 0.5 of the solver is modelled through an abstract
    function sqrtq; no property of sqrtq is required by the theorems below.
-/

namespace GptModel

/-! ### Solver scalar and vector model -/

/-- Vectors standing for the distributed lattice fields handled by the
solver.  Exact rationals stand for the machine numbers. -/
abbrev Vec (n : ℕ) := Fin n → ℚ

/-- Model of g.innerProduct (real shadow). -/
def dotV {n : ℕ} (v w : Vec n) : ℚ := ∑ t, v t * w t

/-- Model of g.norm2. -/
def norm2V {n : ℕ} (v : Vec n) : ℚ := ∑ t, v t * v t

/-- The reason recorded when the fgcr main loop leaves through a break
statement (line 126, 163 or 184 of fgcr.py). -/
inductive BreakReason
  | breakdown
  | converged
  | maxiter
deriving DecidableEq

/-- The mutable state of one inv(psi, src) invocation of fgcr: the fields
psi, r, mmpsi, the direction lists p, mmp and the numpy coefficient tensors
alpha, beta, gamma, delta, together with the residual history and the
break reason (none while the loop is running). -/
structure FgcrState (n : ℕ) where
  psi : Vec n
  r : Vec n
  mmpsi : Vec n
  p : ℕ → Vec n
  mmp : ℕ → Vec n
  alpha : ℕ → ℚ
  beta : ℕ → ℕ → ℚ
  gamma : ℕ → ℚ
  delta : ℕ → ℚ
  history : List ℚ
  brk : Option BreakReason

section Fgcr

variable {n : ℕ} (rlen maxiter : ℕ) (mat : Vec n → Vec n)
variable (prec : Option (Vec n → Vec n)) (src : Vec n) (sqrtq : ℚ → ℚ) (eps : ℚ)

/-- Model of g.orthogonalize(mmp[i], mmp[0:i], beta[:, i]): modified
Gram-Schmidt of w against mmp[0..i), recording the coefficients into
column i of beta.  Returns the orthogonalized vector and the updated
beta tensor. -/
def orthogonalizeF (mmp : ℕ → Vec n) (i : ℕ) (w : Vec n) (be : ℕ → ℕ → ℚ) :
    Vec n × (ℕ → ℕ → ℚ) :=
  (List.range i).foldl
    (fun acc j =>
      let c := dotV (mmp j) acc.1
      (acc.1 - c • mmp j, fun a b => if a = j ∧ b = i then c else acc.2 a b))
    (w, be)

/-- The backward-substitution loop of update_psi (fgcr.py lines 37-40):
for j in reversed(range(i+1)):
  delta[j] = (alpha[j] - np.dot(beta[j, j+1:i+1], delta[j+1:i+1])) / gamma[j].
The first argument of the recursion is the number of indices still to be
processed, so backSubAux al be ga i (i+1) d runs the full loop. -/
def backSubAux (al : ℕ → ℚ) (be : ℕ → ℕ → ℚ) (ga : ℕ → ℚ) (i : ℕ) :
    ℕ → (ℕ → ℚ) → (ℕ → ℚ)
  | 0, d => d
  | m + 1, d =>
    backSubAux al be ga i m
      (Function.update d m ((al m - ∑ l in Finset.Ioc m i, be m l * d l) / ga m))

/-- Model of fgcr.update_psi (fgcr.py lines 35-43): backward substitution
into delta, then psi += delta[j] * p[j] for j in range(i+1).  Only psi and
delta are written; the other fields are returned unchanged. -/
def update_psiF (s : FgcrState n) (i : ℕ) : FgcrState n :=
  let d := backSubAux s.alpha s.beta s.gamma i (i + 1) s.delta
  { s with
    delta := d
    psi := (List.range (i + 1)).foldl (fun v j => v + d j • s.p j) s.psi }

/-- Model of fgcr.calc_res (fgcr.py lines 51-53): mat(mmpsi, psi);
axpy_norm2(r, -1.0, mmpsi, src), i.e. r := src - mmpsi, returning the new
residual norm squared. -/
def calc_resF (s : FgcrState n) : FgcrState n × ℚ :=
  let mmpsi1 := mat s.psi
  let r1 := src - mmpsi1
  ({ s with mmpsi := mmpsi1, r := r1 }, norm2V r1)

/-- Model of fgcr.restart (fgcr.py lines 45-49): the rlen direction vectors
p[0..rlen) are zeroed only when a preconditioner is configured, then
calc_res recomputes mmpsi and r and returns the residual norm squared. -/
def restartF (s : FgcrState n) : FgcrState n × ℚ :=
  let s1 :=
    if prec.isSome then { s with p := fun j => if j < rlen then 0 else s.p j }
    else s
  calc_resF mat src s1

/-- One iteration of the main loop of inv (fgcr.py lines 99-190) at global
iteration k.  Returns the new state together with true when the Python
loop continues and false when it breaks. -/
def fgcrStep (rsq : ℚ) (k : ℕ) (s : FgcrState n) : FgcrState n × Bool :=
  let i := k % rlen
  let pi := match prec with
    | some f => f s.r
    | none => s.r
  let s1 := { s with p := Function.update s.p i pi }
  let ob := orthogonalizeF s1.mmp i (mat pi) s1.beta
  let w := ob.1
  let ga := sqrtq (norm2V w)
  let s2 := { s1 with
    mmp := Function.update s1.mmp i w
    beta := ob.2
    gamma := Function.update s1.gamma i ga }
  if ga = 0 then ({ s2 with brk := some BreakReason.breakdown }, false)
  else
    let al := dotV w s.r / ga
    let wn : Vec n := fun t => w t / ga
    let s3 := { s2 with
      mmp := Function.update s2.mmp i wn
      alpha := Function.update s2.alpha i al }
    let r1 := s.r - al • wn
    let r2 := norm2V r1
    let s4 := { s3 with r := r1, history := s3.history ++ [r2] }
    if r2 ≤ rsq ∨ i + 1 = rlen ∨ k + 1 = maxiter then
      let s5 := update_psiF s4 i
      if r2 ≤ rsq then ({ s5 with brk := some BreakReason.converged }, false)
      else if k + 1 = maxiter then ({ s5 with brk := some BreakReason.maxiter }, false)
      else ((restartF rlen mat prec src s5).1, true)
    else (s4, true)

/-- The main loop for k in range(maxiter) of inv, with structural fuel.
Returns the iteration index at which the loop stopped together with the
final state. -/
def runFgcr (rsq : ℚ) : ℕ → ℕ → FgcrState n → ℕ × FgcrState n
  | 0, k, s => (k, s)
  | fuel + 1, k, s =>
    if k < maxiter then
      match fgcrStep rlen maxiter mat prec src sqrtq rsq k s with
      | (s1, true) => runFgcr rsq fuel (k + 1) s1
      | (s1, false) => (k, s1)
    else (k, s)

/-- The state set up by inv before the initial restart (fgcr.py lines
63-85): psi is the caller vector, r and mmpsi are copies of src, the
history is reset; alloc carries the contents of the freshly allocated
(uninitialized) tensors and direction lists. -/
def initS (psi0 : Vec n) (alloc : FgcrState n) : FgcrState n :=
  { alloc with psi := psi0, r := src, mmpsi := src, history := [], brk := none }

/-- Model of inv(psi, src) (fgcr.py lines 63-190): initial restart, source
norm, the assertion that source and initial residual are not both zero
(modelled by none), the convergence target rsq = eps^2 * ssq, and the main
loop.  alloc supplies the uninitialized allocations. -/
def invF (psi0 : Vec n) (alloc : FgcrState n) : Option (ℕ × FgcrState n) :=
  let s0 := initS src psi0 alloc
  let res := restartF rlen mat prec src s0
  let s1 := res.1
  let r2 := res.2
  let ssq := norm2V src
  if ssq = 0 then
    if r2 = 0 then none
    else some (runFgcr rlen maxiter mat prec src sqrtq (eps ^ 2 * r2) maxiter 0 s1)
  else some (runFgcr rlen maxiter mat prec src sqrtq (eps ^ 2 * ssq) maxiter 0 s1)

end Fgcr

/-! ### Coarsening engine model -/

/-- Gaussian rationals: exact stand-ins for the complex machine numbers of
the coarse link fields, keeping conjugation meaningful. -/
structure QC where
  re : ℚ
  im : ℚ
deriving DecidableEq

instance : Zero QC := ⟨⟨0, 0⟩⟩
instance : One QC := ⟨⟨1, 0⟩⟩
instance : Add QC := ⟨fun a b => ⟨a.re + b.re, a.im + b.im⟩⟩
instance : Neg QC := ⟨fun a => ⟨-a.re, -a.im⟩⟩
instance : Mul QC := ⟨fun a b => ⟨a.re * b.re - a.im * b.im, a.re * b.im + a.im * b.re⟩⟩

/-- Complex conjugation on the scalar model. -/
def conjQC (a : QC) : QC := ⟨a.re, -a.im⟩

/-- Lattice sites, as integer coordinate functions (dimension handled by
which indices are meaningful). -/
abbrev Site := ℕ → ℤ

/-- A fine-grid complex scalar lattice field. -/
abbrev FField := Site → QC

/-- A mask produced by gpt.make_mask: a 0/1 indicator field. -/
abbrev MaskF := Site → Bool

/-- A coarse vcomplex field: one complex component per basis index. -/
abbrev CVec := Site → ℕ → QC

/-- A coarse complex scalar field (output of masked_inner_product). -/
abbrev CScal := Site → QC

/-- A coarse link field: one nbasis x nbasis complex matrix per coarse
site.  The matrix extent nbasis (A[0].otype.shape[0] in the code) is kept
as a separate parameter of the operations below. -/
abbrev CMat := Site → ℕ → ℕ → QC

/-- Model of gpt.cshift(field, mu, s): the field shifted so that the value
at x comes from the site whose mu-coordinate is x mu + s. -/
def cshiftC (f : CMat) (mu : ℕ) (s : ℤ) : CMat :=
  fun x => f (Function.update x mu (x mu + s))

/-- Model of gpt.adj on a matrix field: conjugate transpose per site. -/
def adjC (f : CMat) : CMat := fun x r c => conjQC (f x c r)

/-- Atmp[:, :, :, :, 0:nb, nb:nbasis] *= -1.0 (upper-right quadrant),
with nb = nbasis / 2. -/
def flipUR (nbasis : ℕ) (f : CMat) : CMat :=
  fun x r c =>
    if r < nbasis / 2 ∧ nbasis / 2 ≤ c ∧ c < nbasis then -f x r c else f x r c

/-- Atmp[:, :, :, :, nb:nbasis, 0:nb] *= -1.0 (lower-left quadrant). -/
def flipLL (nbasis : ℕ) (f : CMat) : CMat :=
  fun x r c =>
    if nbasis / 2 ≤ r ∧ r < nbasis ∧ c < nbasis / 2 then -f x r c else f x r c

/-- Python runtime failures of the coarsening engine. -/
inductive CErr
  | assertFail
  | indexErr
  | typeErr
deriving DecidableEq

/-- The transformation comm_links applies to a forward link before storing
it in the backward slot: quadrant sign flip when not hermitian, then
cshift by fb * -1 in direction mu, then conjugate transpose. -/
def commTransform (nbasis : ℕ) (hermitian : Bool) (Ap : CMat) (mu : ℕ) (fb : ℤ) : CMat :=
  adjC (cshiftC (if hermitian then Ap else flipLL nbasis (flipUR nbasis Ap)) mu (fb * (-1)))

/-- The loop of comm_links (coarse/__init__.py lines 153-163) starting at
direction index p: Atmp = copy(A[p]); quadrant flips guarded by the
nbasis % 2 == 0 assertion when not hermitian; A[p + 4] written with the
shifted conjugate transpose.  List reads and writes out of range model
the Python IndexError. -/
def commLinksAux (nbasis : ℕ) (hermitian : Bool) :
    ℕ → List (ℕ × ℤ) → List CMat → Except CErr (List CMat)
  | _, [], A => Except.ok A
  | p, (mu, fb) :: rest, A =>
    match A.get? p with
    | none => Except.error CErr.indexErr
    | some Atmp0 =>
      let pother := p + 4
      let shiftfb := fb * (-1)
      if hermitian then
        if pother < A.length then
          commLinksAux nbasis hermitian (p + 1) rest
            (A.set pother (adjC (cshiftC Atmp0 mu shiftfb)))
        else Except.error CErr.indexErr
      else
        if nbasis % 2 = 0 then
          let Atmp := flipLL nbasis (flipUR nbasis Atmp0)
          if pother < A.length then
            commLinksAux nbasis hermitian (p + 1) rest
              (A.set pother (adjC (cshiftC Atmp mu shiftfb)))
          else Except.error CErr.indexErr
        else Except.error CErr.assertFail

/-- Model of comm_links(A, dirdisps_forward, hermitian) (coarse/__init__.py
lines 150-163).  The leading assert type(A) == list holds by typing; the
length assertion is modelled explicitly.  nbasis stands for
A[0].otype.shape[0]. -/
def comm_linksM (nbasis : ℕ) (A : List CMat) (dd : List (ℕ × ℤ))
    (hermitian : Bool) : Except CErr (List CMat) :=
  if A.length = 2 * dd.length + 1 then commLinksAux nbasis hermitian 0 dd A
  else Except.error CErr.assertFail

/-- dirs = [1, 2, 3, 4] if f_grid.nd == 5 else [0, 1, 2, 3]. -/
def dirsOf (nd : ℕ) : List ℕ := if nd = 5 then [1, 2, 3, 4] else [0, 1, 2, 3]

/-- dirdisps_full = list(zip(dirs * 2, [+1] * 4 + [-1] * 4)). -/
def dirdispsFull (nd : ℕ) : List (ℕ × ℤ) :=
  (dirsOf nd ++ dirsOf nd).zip ([1, 1, 1, 1] ++ [-1, -1, -1, -1])

/-- dirdisps_forward = list(zip(dirs, [+1] * 4)). -/
def dirdispsForward (nd : ℕ) : List (ℕ × ℤ) := (dirsOf nd).zip [1, 1, 1, 1]

/-- Mask of sites on the forward boundary of their block in direction mu:
coor % block == block - 1 in that coordinate. -/
def fwdMask (block : ℕ → ℤ) (mu : ℕ) : MaskF :=
  fun x => decide (x mu % block mu = block mu - 1)

/-- Mask of sites on the backward boundary of their block in direction mu:
coor % block == 0 in that coordinate. -/
def bwdMask (block : ℕ → ℤ) (mu : ℕ) : MaskF :=
  fun x => decide (x mu % block mu = 0)

/-- onemask[:] = 1.0. -/
def onemaskM : MaskF := fun _ => true

/-- blockevenmask: sum of the per-dimension block coordinates is even. -/
def evenMaskM (nd : ℕ) (block : ℕ → ℤ) : MaskF :=
  fun x => decide ((∑ mu in Finset.range nd, x mu / block mu) % 2 = 0)

/-- List element write with the Python IndexError semantics. -/
def setE {α : Type} (l : List α) (i : ℕ) (a : α) : Except CErr (List α) :=
  if i < l.length then Except.ok (l.set i a) else Except.error CErr.indexErr

/-- The boundary-mask loop of create_links (coarse/__init__.py lines
64 and 78-82): dirmasks = [gpt.complex(f_grid) for p in range(nhops)],
then for mu in dirs: make_mask(dirmasks[mu], forward) and
make_mask(dirmasks[mu + 4], backward).  Freshly allocated masks are
placeholders; writes out of range model the IndexError. -/
def buildDirmasks (nd : ℕ) (block : ℕ → ℤ) : Except CErr (List MaskF) :=
  (dirsOf nd).foldlM
    (fun ms mu => do
      let ms1 ← setE ms mu (fwdMask block mu)
      setE ms1 (mu + 4) (bwdMask block mu))
    (List.replicate (dirdispsFull nd).length (fun _ => false))

/-- The mask list produced by the boundary-mask loop on a non-5D grid:
forward masks at positions 0-3, backward masks at positions 4-7. -/
def dirmasksListOf (block : ℕ → ℤ) : List MaskF :=
  [fwdMask block 0, fwdMask block 1, fwdMask block 2, fwdMask block 3,
    bwdMask block 0, bwdMask block 1, bwdMask block 2, bwdMask block 3]

/-- The external block/projection primitives used by create_links, kept
abstract: the directional hop Mdir of the fine operator, the full fine
operator application, gpt.block.project, gpt.block.masked_inner_product,
gpt.block.project_using_lut and gpt.lookup_table. -/
structure CoarsenOps (Lut : Type) where
  Mdir : ℕ → ℤ → FField → FField
  fapply : FField → FField
  project : List FField → FField → CVec
  maskedInner : MaskF → FField → FField → CScal
  projectLut : List FField → Lut → FField → CVec
  mkLut : MaskF → Lut

/-- dirluts = [lookup_table(c_grid, dirmasks[p]) for p, _ in
enumerate(dirdisps)]: reads dirmasks[0..ndd), failing if any index is out
of range. -/
def buildLuts {Lut : Type} (ops : CoarsenOps Lut) (dirmasks : List MaskF)
    (ndd : ℕ) : Except CErr (List Lut) :=
  if ndd ≤ dirmasks.length then Except.ok ((dirmasks.take ndd).map ops.mkLut)
  else Except.error CErr.indexErr

/-- The zero fine field, used as the (never reached) list lookup default. -/
def zeroF : FField := fun _ => 0

/-- Pointwise mask application: mask * field in the gpt expression
language. -/
def maskMul (m : MaskF) (f : FField) : FField := fun x => if m x then f x else 0

/-- Pointwise sum of fine fields. -/
def addF (f g : FField) : FField := fun x => f x + g x

/-- A[p][:, :, :, :, :, i] = oproj_vec[:]: write column i (rows 0..N) of
every site matrix; the column index must be inside the otype extent N. -/
def setColE (N : ℕ) (M : CMat) (i : ℕ) (v : CVec) : Except CErr CMat :=
  if i < N then
    Except.ok (fun x r c => if c = i ∧ r < N then v x r else M x r c)
  else Except.error CErr.indexErr

/-- A[p][:, :, :, :, j, i] = oproj_scal[:]: write entry (j, i) of every
site matrix; both indices must be inside the otype extent N. -/
def setEntryE (N : ℕ) (M : CMat) (j i : ℕ) (sc : CScal) : Except CErr CMat :=
  if j < N ∧ i < N then
    Except.ok (fun x r c => if r = j ∧ c = i then sc x else M x r c)
  else Except.error CErr.indexErr

/-- The inner loop for j, vl in enumerate(basis) of the mask-based path
(coarse/__init__.py lines 111-116): one masked inner product per left
basis vector, written into entry (j, i). -/
def maskProjLoop {Lut : Type} (ops : CoarsenOps Lut) (mk : MaskF)
    (Mvrp : FField) (i N : ℕ) : ℕ → List FField → CMat → Except CErr CMat
  | _, [], M => Except.ok M
  | j, vl :: rest, M => do
    let M1 ← setEntryE N M j i (ops.maskedInner mk vl Mvrp)
    maskProjLoop ops mk Mvrp i N (j + 1) rest M1

/-- The loop for p, (mu, fb) in enumerate(dirdisps) of create_links
(coarse/__init__.py lines 103-116): project the directional term Mvr[p]
and write it into column i of A[p], through the lut path or the mask
path. -/
def dirLoop {Lut : Type} (ops : CoarsenOps Lut) (uselut : Bool) (N : ℕ)
    (basis : List FField) (i : ℕ) (luts : List Lut) (dirmasks : List MaskF)
    (Mvr : List FField) : ℕ → List (ℕ × ℤ) → List CMat → Except CErr (List CMat)
  | _, [], A => Except.ok A
  | p, _ :: rest, A =>
    match A.get? p, Mvr.get? p with
    | some Ap, some Mvrp =>
      if uselut then
        match luts.get? p with
        | some lutp => do
          let Ap1 ← setColE N Ap i (ops.projectLut basis lutp Mvrp)
          dirLoop ops uselut N basis i luts dirmasks Mvr (p + 1) rest (A.set p Ap1)
        | none => Except.error CErr.indexErr
      else
        match dirmasks.get? p with
        | some mk => do
          let Ap1 ← maskProjLoop ops mk Mvrp i N 0 basis Ap
          dirLoop ops uselut N basis i luts dirmasks Mvr (p + 1) rest (A.set p Ap1)
        | none => Except.error CErr.indexErr
    | _, _ => Except.error CErr.indexErr

/-- The loop for i, vr in enumerate(basis) of create_links
(coarse/__init__.py lines 95-137): directional hops Mvr, directional
projection writes, the fast block-diagonal term
blockevenmask * fmat * vr * blockevenmask +
blockoddmask * fmat * vr * blockoddmask, its projection, and the write
into column i of the self link A[selflink] with selflink = 8. -/
def basisLoop {Lut : Type} (ops : CoarsenOps Lut) (uselut : Bool) (N : ℕ)
    (basis : List FField) (dirdisps : List (ℕ × ℤ)) (luts : List Lut)
    (fullut : Lut) (dirmasks : List MaskF) (em om : MaskF) :
    ℕ → List FField → List CMat → Except CErr (List CMat)
  | _, [], A => Except.ok A
  | i, vr :: rest, A => do
    let Mvr := dirdisps.map (fun d => ops.Mdir d.1 d.2 vr)
    let A1 ← dirLoop ops uselut N basis i luts dirmasks Mvr 0 dirdisps A
    let tmp := addF (maskMul em (ops.fapply (maskMul em vr)))
      (maskMul om (ops.fapply (maskMul om vr)))
    let selfproj := if uselut then ops.projectLut basis fullut tmp
      else ops.project basis tmp
    match A1.get? 8 with
    | some As => do
      let As1 ← setColE N As i selfproj
      basisLoop ops uselut N basis dirdisps luts fullut dirmasks em om
        (i + 1) rest (A1.set 8 As1)
    | none => Except.error CErr.indexErr

/-- The parameters of create_links. -/
structure CoarseParams where
  hermitian : Bool
  savelinks : Bool
  uselut : Bool

/-- Model of create_links(A, fmat, basis, params) (coarse/__init__.py
lines 23-147): the entry assertion not (hermitian and not savelinks),
the boundary masks, the optional lookup tables, the basis loop, and the
final comm_links pass when savelinks is set.  nd is the fine grid
dimension count, block the per-dimension block size (fine extent divided
by coarse extent), nbasis the otype extent of the links in A. -/
def createLinksM {Lut : Type} (ops : CoarsenOps Lut) (A : List CMat)
    (basis : List FField) (nd : ℕ) (block : ℕ → ℤ) (nbasis : ℕ)
    (params : CoarseParams) : Except CErr (List CMat) :=
  if params.hermitian && !params.savelinks then Except.error CErr.assertFail
  else do
    let em := evenMaskM nd block
    let om : MaskF := fun x => !em x
    let dirmasks ← buildDirmasks nd block
    let dirdisps := if params.savelinks then dirdispsForward nd else dirdispsFull nd
    let luts ← if params.uselut then buildLuts ops dirmasks dirdisps.length
      else Except.ok ([] : List Lut)
    let fullut := ops.mkLut onemaskM
    let A1 ← basisLoop ops params.uselut nbasis basis dirdisps luts fullut
      dirmasks em om 0 basis A
    if params.savelinks then comm_linksM nbasis A1 (dirdispsForward nd) params.hermitian
    else Except.ok A1

/-- Model of recreate_links(A, fmat, basis) (coarse/__init__.py lines
166-167).  Its body is create_links(A, fmat, basis): create_links takes
four required positional arguments and defines no default for params, so
the Python call raises TypeError before any work is done. -/
def recreate_linksM {Lut : Type} (_ops : CoarsenOps Lut) (_A : List CMat)
    (_basis : List FField) : Except CErr (List CMat) :=
  Except.error CErr.typeErr

/-- Discriminator for successful runs of the coarsening engine. -/
def okE {α : Type} : Except CErr α → Bool
  | Except.ok _ => true
  | Except.error _ => false

/-! ### Concrete instances used to evaluate the development -/

/-- The zero operator on one-dimensional vectors. -/
def wMat : Vec 1 → Vec 1 := fun _ => 0

/-- The identity operator on one-dimensional vectors. -/
def wMatId : Vec 1 → Vec 1 := fun v => v

/-- The zero vector. -/
def wZeroV : Vec 1 := fun _ => 0

/-- The all-one vector. -/
def wOneV : Vec 1 := fun _ => 1

/-- A concrete allocation state (everything zeroed). -/
def wAlloc : FgcrState 1 :=
  { psi := 0, r := 0, mmpsi := 0, p := fun _ => 0, mmp := fun _ => 0
    alpha := fun _ => 0, beta := fun _ _ => 0, gamma := fun _ => 0
    delta := fun _ => 0, history := [], brk := none }

/-- A concrete solver state with nontrivial coefficient tensors. -/
def wS1 : FgcrState 1 :=
  { psi := fun _ => 5, r := 0, mmpsi := 0, p := fun j => fun _ => (j : ℚ)
    mmp := fun _ => 0, alpha := fun j => (j : ℚ) + 1
    beta := fun a b => (a : ℚ) + (b : ℚ), gamma := fun _ => 2
    delta := fun _ => 0, history := [], brk := none }

/-- A concrete solver state with nonzero direction vectors. -/
def wS3 : FgcrState 1 :=
  { psi := fun _ => 3, r := 0, mmpsi := 0, p := fun _ => fun _ => 1
    mmp := fun _ => 0, alpha := fun _ => 0, beta := fun _ _ => 0
    gamma := fun _ => 0, delta := fun _ => 0, history := [], brk := none }

/-- The state reached right after the initial restart of the concrete
breakdown run (zero operator, unit source): r equals the source. -/
def wS2 : FgcrState 1 :=
  { psi := 0, r := wOneV, mmpsi := 0, p := fun _ => 0, mmp := fun _ => 0
    alpha := fun _ => 0, beta := fun _ _ => 0, gamma := fun _ => 0
    delta := fun _ => 0, history := [], brk := none }

/-- The state reached after the initial restart of the concrete breakdown
solve invocation (zero operator, unit source, zero initial guess). -/
def wS1R : FgcrState 1 := (restartF 2 wMat none wOneV (initS wOneV wZeroV wAlloc)).1

/-- The convergence target of the concrete breakdown solve invocation. -/
def wRsq : ℚ := (0 : ℚ) ^ 2 * norm2V wOneV

/-- The outcome of the concrete breakdown run of the solver: the zero
operator breaks down at the very first iteration. -/
def wOut : ℕ × FgcrState 1 :=
  (0, (fgcrStep 2 5 wMat none wOneV (fun q => q) wRsq 0 wS1R).1)

/-- A constant coarse link field. -/
def wCM (k : ℕ) : CMat := fun _ _ _ => ⟨(k : ℚ), 0⟩

/-- A concrete pre-allocated link list of length 9. -/
def wAList : List CMat :=
  [wCM 0, wCM 1, wCM 2, wCM 3, wCM 4, wCM 5, wCM 6, wCM 7, wCM 8]

/-- A concrete masked inner product primitive. -/
def wMIP : MaskF → FField → FField → CScal :=
  fun m a b x => if m x then a x * b x else 0

/-- A concrete instance of the external block/projection primitives in
which a lookup table is the mask it was built from and both projection
paths reduce to the same masked inner products. -/
def wOps : CoarsenOps MaskF :=
  { Mdir := fun _ _ f => f
    fapply := fun f => f
    project := fun bs v x j => wMIP onemaskM (bs.getD j zeroF) v x
    maskedInner := wMIP
    projectLut := fun bs l v x j => wMIP l (bs.getD j zeroF) v x
    mkLut := fun m => m }

/-- A concrete one-element basis. -/
def wBasis : List FField := [fun _ => 1]

/-- A concrete block size function. -/
def wBlock : ℕ → ℤ := fun _ => 1

/-! ### Back substitution (claim C1) -/

/-- Indices at or above the remaining count are never written by the
backward-substitution loop. -/
lemma backSubAux_stable (al : ℕ → ℚ) (be : ℕ → ℕ → ℚ) (ga : ℕ → ℚ) (i : ℕ) :
    ∀ (m : ℕ) (d : ℕ → ℚ) (l : ℕ), m ≤ l → backSubAux al be ga i m d l = d l := by
  intro m
  induction m with
  | zero => intro d l _; rfl
  | succ m ih =>
    intro d l hl
    rw [backSubAux, ih _ l (Nat.le_of_succ_le hl)]
    exact Function.update_noteq (by omega) _ d

/-- After the loop has processed indices m-1 .. 0, every processed index j
satisfies the triangular recurrence in terms of the final delta values. -/
lemma backSubAux_spec (al : ℕ → ℚ) (be : ℕ → ℕ → ℚ) (ga : ℕ → ℚ) (i : ℕ) :
    ∀ (m : ℕ) (d : ℕ → ℚ) (j : ℕ), j < m →
      backSubAux al be ga i m d j
        = (al j - ∑ l in Finset.Ioc j i, be j l * backSubAux al be ga i m d l) / ga j := by
  intro m
  induction m with
  | zero => intro d j hj; exact absurd hj (Nat.not_lt_zero j)
  | succ m ih =>
    intro d j hj
    rcases Nat.lt_succ_iff_lt_or_eq.mp hj with hj1 | rfl
    · simp only [backSubAux]
      exact ih _ j hj1
    · have key : ∀ (v : ℚ) (l : ℕ), j < l →
          backSubAux al be ga i j (Function.update d j v) l = d l := by
        intro v l hl
        rw [backSubAux_stable al be ga i j _ l (le_of_lt hl)]
        exact Function.update_noteq (by omega) _ _
      simp only [backSubAux]
      rw [backSubAux_stable al be ga i j _ j le_rfl, Function.update_same]
      have hsum : ∑ l in Finset.Ioc j i,
            be j l * backSubAux al be ga i j
              (Function.update d j ((al j - ∑ l in Finset.Ioc j i, be j l * d l) / ga j)) l
          = ∑ l in Finset.Ioc j i, be j l * d l :=
        Finset.sum_congr rfl (fun l hl => by rw [key _ l (Finset.mem_Ioc.mp hl).1])
      rw [hsum]

/-- Left fold of pointwise addition over an index range is the
corresponding finite sum. -/
lemma foldl_add_range {n : ℕ} (g : ℕ → Vec n) :
    ∀ (m : ℕ) (v0 : Vec n),
      (List.range m).foldl (fun v j => v + g j) v0 = v0 + ∑ j in Finset.range m, g j := by
  intro m
  induction m with
  | zero => intro v0; simp
  | succ m ih =>
    intro v0
    rw [List.range_succ, List.foldl_append, ih, Finset.sum_range_succ]
    simp [add_assoc]

/-- Claim C1: for every in-cycle index i, update_psi solves the
triangular system delta[j] = (alpha[j] - sum over l in (j, i] of
beta[j, l] * delta[l]) / gamma[j] in reverse order, adds
sum over j in [0, i] of delta[j] * p[j] to psi, and leaves alpha, beta,
gamma and p unchanged. -/
theorem fgcr_update_psi_back_substitution {n : ℕ} (s : FgcrState n) (i j : ℕ)
    (hj : j ≤ i) :
    (update_psiF s i).psi
        = s.psi + ∑ m in Finset.range (i + 1), (update_psiF s i).delta m • s.p m
    ∧ (update_psiF s i).delta j
        = (s.alpha j
            - ∑ l in Finset.Ioc j i, s.beta j l * (update_psiF s i).delta l)
          / s.gamma j
    ∧ (update_psiF s i).alpha = s.alpha
    ∧ (update_psiF s i).beta = s.beta
    ∧ (update_psiF s i).gamma = s.gamma
    ∧ (update_psiF s i).p = s.p := by
  refine ⟨?_, ?_, rfl, rfl, rfl, rfl⟩
  · exact foldl_add_range
      (fun m => (backSubAux s.alpha s.beta s.gamma i (i + 1) s.delta) m • s.p m)
      (i + 1) s.psi
  · exact backSubAux_spec s.alpha s.beta s.gamma i (i + 1) s.delta j
      (Nat.lt_succ_of_le hj)

/-- The backward-substitution step does not touch the residual history. -/
lemma update_psiF_history {n : ℕ} (s : FgcrState n) (i : ℕ) :
    (update_psiF s i).history = s.history := rfl

/-- The backward-substitution step does not touch the break flag. -/
lemma update_psiF_brk {n : ℕ} (s : FgcrState n) (i : ℕ) :
    (update_psiF s i).brk = s.brk := rfl

/-- restart does not touch psi. -/
lemma restartF_psi {n : ℕ} (rlen : ℕ) (mat : Vec n → Vec n)
    (prec : Option (Vec n → Vec n)) (src : Vec n) (s : FgcrState n) :
    (restartF rlen mat prec src s).1.psi = s.psi := by
  cases prec <;> rfl

/-- restart does not touch the break flag. -/
lemma restartF_brk {n : ℕ} (rlen : ℕ) (mat : Vec n → Vec n)
    (prec : Option (Vec n → Vec n)) (src : Vec n) (s : FgcrState n) :
    (restartF rlen mat prec src s).1.brk = s.brk := by
  cases prec <;> rfl

/-- restart does not touch the residual history. -/
lemma restartF_history {n : ℕ} (rlen : ℕ) (mat : Vec n → Vec n)
    (prec : Option (Vec n → Vec n)) (src : Vec n) (s : FgcrState n) :
    (restartF rlen mat prec src s).1.history = s.history := by
  cases prec <;> rfl

/-! ### Restart (claim C3) -/

/-- Claim C3 counterexample: when no preconditioner is configured, a call
to restart leaves the direction vectors untouched, so the claim that every
restart call zeroes all p[j] fails on the state wS3 whose p[0] is the
all-one vector. -/
theorem fgcr_restart_claim_false :
    (restartF 1 wMat none wOneV wS3).1.p 0 ≠ (0 : Vec 1) := by
  intro h
  have h0 := congrFun h 0
  norm_num [restartF, calc_resF, wS3] at h0

/-- Claim C3 (amended): restart recomputes mmpsi = A(psi) and
r = src - mmpsi, returns the squared norm of the recomputed residual and
leaves psi unchanged; the direction vectors p[0..rlen) are zeroed exactly
when a preconditioner is configured, and p is left untouched otherwise. -/
theorem fgcr_restart_behavior {n : ℕ} (rlen : ℕ) (mat : Vec n → Vec n)
    (prec : Option (Vec n → Vec n)) (src : Vec n) (s : FgcrState n) :
    (restartF rlen mat prec src s).1.psi = s.psi
    ∧ (restartF rlen mat prec src s).1.mmpsi = mat s.psi
    ∧ (restartF rlen mat prec src s).1.r = src - mat s.psi
    ∧ (restartF rlen mat prec src s).2 = norm2V (src - mat s.psi)
    ∧ (prec = none → (restartF rlen mat prec src s).1.p = s.p)
    ∧ (∀ f, prec = some f → ∀ j, j < rlen →
        (restartF rlen mat prec src s).1.p j = 0) := by
  cases prec with
  | none => exact ⟨rfl, rfl, rfl, rfl, fun _ => rfl, fun f hf => by cases hf⟩
  | some f =>
    refine ⟨rfl, rfl, rfl, rfl, ?_, ?_⟩
    · intro hc; cases hc
    · intro f' _ j hj
      show (if j < rlen then (0 : Vec n) else s.p j) = 0
      rw [if_pos hj]

/-- Witness for the amended claim C3 with a configured preconditioner. -/
theorem fgcr_restart_behavior_witness :
    (restartF 1 wMat (some wMatId) wOneV wS3).1.psi = wS3.psi
    ∧ (restartF 1 wMat (some wMatId) wOneV wS3).1.p 0 = 0 := by
  have h := fgcr_restart_behavior 1 wMat (some wMatId) wOneV wS3
  exact ⟨h.1, h.2.2.2.2.2 wMatId rfl 0 (by decide)⟩

/-! ### Main-loop characterization (claims C2 and C10) -/

/-- Case analysis of one loop iteration: either the loop continues (the
break flag is untouched, exactly one residual is appended, and psi is
untouched unless the iteration closes the cycle), or it breaks with
breakdown (nothing appended, psi untouched), or it breaks with
convergence or iteration exhaustion (one residual appended). -/
lemma fgcrStep_cases {n : ℕ} (rlen maxiter : ℕ) (mat : Vec n → Vec n)
    (prec : Option (Vec n → Vec n)) (src : Vec n) (sqrtq : ℚ → ℚ)
    (rsq : ℚ) (k : ℕ) (s : FgcrState n) :
    ((fgcrStep rlen maxiter mat prec src sqrtq rsq k s).2 = true
      ∧ (fgcrStep rlen maxiter mat prec src sqrtq rsq k s).1.brk = s.brk
      ∧ (∃ x, (fgcrStep rlen maxiter mat prec src sqrtq rsq k s).1.history
          = s.history ++ [x])
      ∧ (k % rlen + 1 ≠ rlen →
          (fgcrStep rlen maxiter mat prec src sqrtq rsq k s).1.psi = s.psi))
    ∨ ((fgcrStep rlen maxiter mat prec src sqrtq rsq k s).2 = false
      ∧ (fgcrStep rlen maxiter mat prec src sqrtq rsq k s).1.brk
          = some BreakReason.breakdown
      ∧ (fgcrStep rlen maxiter mat prec src sqrtq rsq k s).1.history = s.history
      ∧ (fgcrStep rlen maxiter mat prec src sqrtq rsq k s).1.psi = s.psi)
    ∨ ((fgcrStep rlen maxiter mat prec src sqrtq rsq k s).2 = false
      ∧ ((fgcrStep rlen maxiter mat prec src sqrtq rsq k s).1.brk
            = some BreakReason.converged
          ∨ (fgcrStep rlen maxiter mat prec src sqrtq rsq k s).1.brk
            = some BreakReason.maxiter)
      ∧ ∃ x, (fgcrStep rlen maxiter mat prec src sqrtq rsq k s).1.history
          = s.history ++ [x]) := by
  simp only [fgcrStep]
  split_ifs with hga hcond hr2 hmax
  · exact Or.inr (Or.inl ⟨rfl, rfl, rfl, rfl⟩)
  · refine Or.inr (Or.inr ⟨rfl, Or.inl rfl, ?_⟩)
    exact ⟨_, rfl⟩
  · refine Or.inr (Or.inr ⟨rfl, Or.inr rfl, ?_⟩)
    exact ⟨_, rfl⟩
  · refine Or.inl ⟨rfl, ?_, ?_, ?_⟩
    · rw [restartF_brk, update_psiF_brk]
    · rw [restartF_history, update_psiF_history]
      exact ⟨_, rfl⟩
    · intro hne
      exact absurd hcond (by tauto)
  · refine Or.inl ⟨rfl, rfl, ?_, fun _ => rfl⟩
    exact ⟨_, rfl⟩

/-- The loop never returns an iteration index below its starting index. -/
lemma runFgcr_le {n : ℕ} (rlen maxiter : ℕ) (mat : Vec n → Vec n)
    (prec : Option (Vec n → Vec n)) (src : Vec n) (sqrtq : ℚ → ℚ) (rsq : ℚ) :
    ∀ (fuel k : ℕ) (s : FgcrState n),
      k ≤ (runFgcr rlen maxiter mat prec src sqrtq rsq fuel k s).1 := by
  intro fuel
  induction fuel with
  | zero => intro k s; exact le_rfl
  | succ fuel ih =>
    intro k s
    rw [runFgcr]
    split_ifs with hk
    · rcases h : fgcrStep rlen maxiter mat prec src sqrtq rsq k s with ⟨s1, b⟩
      cases b
      · exact le_rfl
      · exact le_trans (Nat.le_succ k) (ih (k + 1) s1)
    · exact le_rfl

/-- Invariant behind claim C2: starting from an iteration index matching
the history length, a run that stops with breakdown has recorded exactly
one residual per completed iteration and none for the breakdown
iteration. -/
lemma runFgcr_breakdown_history {n : ℕ} (rlen maxiter : ℕ) (mat : Vec n → Vec n)
    (prec : Option (Vec n → Vec n)) (src : Vec n) (sqrtq : ℚ → ℚ) (rsq : ℚ) :
    ∀ (fuel k : ℕ) (s : FgcrState n), s.brk = none → s.history.length = k →
      (runFgcr rlen maxiter mat prec src sqrtq rsq fuel k s).2.brk
        = some BreakReason.breakdown →
      (runFgcr rlen maxiter mat prec src sqrtq rsq fuel k s).2.history.length
        = (runFgcr rlen maxiter mat prec src sqrtq rsq fuel k s).1 := by
  intro fuel
  induction fuel with
  | zero =>
    intro k s h0 _ hb
    rw [runFgcr] at hb
    replace hb : s.brk = some BreakReason.breakdown := hb
    rw [h0] at hb
    exact Option.noConfusion hb
  | succ fuel ih =>
    intro k s h0 hl hb
    rw [runFgcr] at hb ⊢
    split_ifs at hb ⊢ with hk
    · rcases h : fgcrStep rlen maxiter mat prec src sqrtq rsq k s with ⟨s1, b⟩
      rw [h] at hb
      have hc := fgcrStep_cases rlen maxiter mat prec src sqrtq rsq k s
      rw [h] at hc
      cases b with
      | false =>
        replace hb : s1.brk = some BreakReason.breakdown := hb
        show s1.history.length = k
        rcases hc with ⟨ht, _⟩ | ⟨_, _, hh, _⟩ | ⟨_, hbrk, _⟩
        · exact Bool.noConfusion (show false = true from ht)
        · replace hh : s1.history = s.history := hh
          rw [hh, hl]
        · replace hbrk : s1.brk = some BreakReason.converged
              ∨ s1.brk = some BreakReason.maxiter := hbrk
          rw [hb] at hbrk
          rcases hbrk with hx | hx <;> simp at hx
      | true =>
        replace hb :
            (runFgcr rlen maxiter mat prec src sqrtq rsq fuel (k + 1) s1).2.brk
              = some BreakReason.breakdown := hb
        show (runFgcr rlen maxiter mat prec src sqrtq rsq fuel (k + 1) s1).2.history.length
          = (runFgcr rlen maxiter mat prec src sqrtq rsq fuel (k + 1) s1).1
        rcases hc with ⟨_, hbrk, ⟨x, hh⟩, _⟩ | ⟨hf, _⟩ | ⟨hf, _⟩
        · replace hbrk : s1.brk = s.brk := hbrk
          replace hh : s1.history = s.history ++ [x] := hh
          refine ih (k + 1) s1 ?_ ?_ hb
          · rw [hbrk, h0]
          · rw [hh, List.length_append, hl]
            rfl
        · exact Bool.noConfusion (show true = false from hf)
        · exact Bool.noConfusion (show true = false from hf)
    · replace hb : s.brk = some BreakReason.breakdown := hb
      rw [h0] at hb
      exact Option.noConfusion hb

/-- Helper: when the in-cycle index does not close the cycle, the cycle
number of the next iteration is unchanged. -/
lemma div_succ_same (b k : ℕ) (h : k % b + 1 ≠ b) : (k + 1) / b = k / b := by
  rcases Nat.eq_zero_or_pos b with rfl | hb
  · simp
  · have hmod : k % b < b := Nat.mod_lt _ hb
    have hlt : k % b + 1 < b := lt_of_le_of_ne (Nat.succ_le_of_lt hmod) h
    have hk : k + 1 = (k % b + 1) + b * (k / b) := by
      have := Nat.mod_add_div k b
      omega
    rw [hk, Nat.add_mul_div_left _ _ hb, Nat.div_eq_of_lt hlt, Nat.zero_add]

/-- Helper: when the in-cycle index closes the cycle, the cycle number of
the next iteration increases by one. -/
lemma div_succ_next (b k : ℕ) (h : k % b + 1 = b) : (k + 1) / b = k / b + 1 := by
  have hb : 0 < b := by omega
  have hk : k + 1 = b + b * (k / b) := by
    have := Nat.mod_add_div k b
    omega
  rw [hk, Nat.add_mul_div_left _ _ hb, Nat.div_self hb]
  omega

/-- Claim C10: when breakdown (gamma = 0) stops the loop without a cycle
boundary having been crossed since the starting state (the stop index has
the same cycle number as the start index), psi still holds exactly its
starting value: the breakdown iteration breaks before update_psi, and
every earlier iteration of the cycle either left psi untouched or closed
the cycle or left the loop.  Applied at a cycle start this says the inner
iterations completed in the broken cycle contribute nothing to psi. -/
theorem fgcr_breakdown_leaves_psi {n : ℕ} (rlen maxiter : ℕ) (mat : Vec n → Vec n)
    (prec : Option (Vec n → Vec n)) (src : Vec n) (sqrtq : ℚ → ℚ) (rsq : ℚ) :
    ∀ (fuel k : ℕ) (s : FgcrState n), s.brk = none →
      (runFgcr rlen maxiter mat prec src sqrtq rsq fuel k s).2.brk
        = some BreakReason.breakdown →
      (runFgcr rlen maxiter mat prec src sqrtq rsq fuel k s).1 / rlen = k / rlen →
      (runFgcr rlen maxiter mat prec src sqrtq rsq fuel k s).2.psi = s.psi := by
  intro fuel
  induction fuel with
  | zero =>
    intro k s h0 hb _
    rw [runFgcr] at hb
    replace hb : s.brk = some BreakReason.breakdown := hb
    rw [h0] at hb
    exact Option.noConfusion hb
  | succ fuel ih =>
    intro k s h0 hb hcy
    rw [runFgcr] at hb hcy ⊢
    split_ifs at hb hcy ⊢ with hk
    · rcases h : fgcrStep rlen maxiter mat prec src sqrtq rsq k s with ⟨s1, b⟩
      rw [h] at hb hcy
      have hc := fgcrStep_cases rlen maxiter mat prec src sqrtq rsq k s
      rw [h] at hc
      cases b with
      | false =>
        replace hb : s1.brk = some BreakReason.breakdown := hb
        show s1.psi = s.psi
        rcases hc with ⟨ht, _⟩ | ⟨_, _, _, hpsi⟩ | ⟨_, hbrk, _⟩
        · exact Bool.noConfusion (show false = true from ht)
        · exact hpsi
        · replace hbrk : s1.brk = some BreakReason.converged
              ∨ s1.brk = some BreakReason.maxiter := hbrk
          rw [hb] at hbrk
          rcases hbrk with hx | hx <;> simp at hx
      | true =>
        replace hb :
            (runFgcr rlen maxiter mat prec src sqrtq rsq fuel (k + 1) s1).2.brk
              = some BreakReason.breakdown := hb
        replace hcy :
            (runFgcr rlen maxiter mat prec src sqrtq rsq fuel (k + 1) s1).1 / rlen
              = k / rlen := hcy
        show (runFgcr rlen maxiter mat prec src sqrtq rsq fuel (k + 1) s1).2.psi = s.psi
        by_cases hcyc : k % rlen + 1 = rlen
        · exfalso
          have hle := runFgcr_le rlen maxiter mat prec src sqrtq rsq fuel (k + 1) s1
          have h1 : (k + 1) / rlen = k / rlen + 1 := div_succ_next rlen k hcyc
          have h2 : (k + 1) / rlen
              ≤ (runFgcr rlen maxiter mat prec src sqrtq rsq fuel (k + 1) s1).1 / rlen :=
            Nat.div_le_div_right hle
          rw [h1, hcy] at h2
          exact Nat.not_succ_le_self _ h2
        · rcases hc with ⟨_, hbrk, _, hpsi⟩ | ⟨hf, _⟩ | ⟨hf, _⟩
          · replace hbrk : s1.brk = s.brk := hbrk
            replace hpsi : k % rlen + 1 ≠ rlen → s1.psi = s.psi := hpsi
            have hcy1 :
                (runFgcr rlen maxiter mat prec src sqrtq rsq fuel (k + 1) s1).1 / rlen
                  = (k + 1) / rlen := by
              rw [div_succ_same rlen k hcyc]
              exact hcy
            rw [ih (k + 1) s1 (by rw [hbrk, h0]) hb hcy1, hpsi hcyc]
          · exact Bool.noConfusion (show true = false from hf)
          · exact Bool.noConfusion (show true = false from hf)
    · rfl

/-- restart returns the squared norm of the recomputed residual. -/
lemma restartF_snd {n : ℕ} (rlen : ℕ) (mat : Vec n → Vec n)
    (prec : Option (Vec n → Vec n)) (src : Vec n) (s : FgcrState n) :
    (restartF rlen mat prec src s).2 = norm2V (src - mat s.psi) := by
  cases prec <;> rfl

/-- When the orthogonalized direction has zero norm the iteration breaks
with breakdown, appending no residual and leaving psi untouched. -/
lemma fgcrStep_breakdown {n : ℕ} (rlen maxiter : ℕ) (mat : Vec n → Vec n)
    (prec : Option (Vec n → Vec n)) (src : Vec n) (sqrtq : ℚ → ℚ)
    (rsq : ℚ) (k : ℕ) (s : FgcrState n)
    (h : sqrtq (norm2V (orthogonalizeF s.mmp (k % rlen)
        (mat (match prec with | some f => f s.r | none => s.r)) s.beta).1) = 0) :
    (fgcrStep rlen maxiter mat prec src sqrtq rsq k s).2 = false
    ∧ (fgcrStep rlen maxiter mat prec src sqrtq rsq k s).1.brk
        = some BreakReason.breakdown
    ∧ (fgcrStep rlen maxiter mat prec src sqrtq rsq k s).1.psi = s.psi
    ∧ (fgcrStep rlen maxiter mat prec src sqrtq rsq k s).1.history = s.history := by
  simp only [fgcrStep]
  rw [if_pos h]
  exact ⟨rfl, rfl, rfl, rfl⟩

/-- A loop iteration whose step breaks stops the loop at that index. -/
lemma runFgcr_halt {n : ℕ} (rlen maxiter : ℕ) (mat : Vec n → Vec n)
    (prec : Option (Vec n → Vec n)) (src : Vec n) (sqrtq : ℚ → ℚ) (rsq : ℚ)
    (fuel k : ℕ) (s : FgcrState n) (hk : k < maxiter)
    (hf : (fgcrStep rlen maxiter mat prec src sqrtq rsq k s).2 = false) :
    runFgcr rlen maxiter mat prec src sqrtq rsq (fuel + 1) k s
      = (k, (fgcrStep rlen maxiter mat prec src sqrtq rsq k s).1) := by
  rw [runFgcr, if_pos hk]
  rcases h : fgcrStep rlen maxiter mat prec src sqrtq rsq k s with ⟨s1, b⟩
  rw [h] at hf
  replace hf : b = false := hf
  subst hf
  rfl

/-- Claim C2: a solve invocation that stops because gamma[i] = 0 ends by
the soft-stop path (the run is a returned value, the only modelled
exception being the setup assertion), and the recorded history then has
exactly one entry per completed inner iteration: its length equals the
global iteration index at which breakdown occurred, the breakdown
iteration appending no residual. -/
theorem fgcr_breakdown_history_length {n : ℕ} (rlen maxiter : ℕ)
    (mat : Vec n → Vec n) (prec : Option (Vec n → Vec n)) (src : Vec n)
    (sqrtq : ℚ → ℚ) (eps : ℚ) (psi0 : Vec n) (alloc : FgcrState n)
    (out : ℕ × FgcrState n)
    (hout : invF rlen maxiter mat prec src sqrtq eps psi0 alloc = some out)
    (hb : out.2.brk = some BreakReason.breakdown) :
    out.2.history.length = out.1 := by
  simp only [invF] at hout
  split_ifs at hout with h1 h2
  all_goals
    first
      | exact Option.noConfusion hout
      | (obtain rfl := Option.some.inj hout
         exact runFgcr_breakdown_history rlen maxiter mat prec src sqrtq _ maxiter 0 _
           (by rw [restartF_brk]; rfl) (by rw [restartF_history]; rfl) hb)

/-- Witness for claim C2: the zero operator with a unit source breaks down
at the first iteration, with an empty history. -/
theorem fgcr_breakdown_history_length_witness :
    invF 2 5 wMat none wOneV (fun q => q) 0 wZeroV wAlloc = some wOut
    ∧ wOut.2.brk = some BreakReason.breakdown
    ∧ wOut.2.history.length = wOut.1 := by
  have hbd := fgcrStep_breakdown 2 5 wMat none wOneV (fun q => q) wRsq 0 wS1R
    (by simp [orthogonalizeF, norm2V, wMat, Fin.sum_univ_one])
  have hssq : ¬norm2V wOneV = 0 := by
    norm_num [norm2V, wOneV, Fin.sum_univ_one]
  have hout : invF 2 5 wMat none wOneV (fun q => q) 0 wZeroV wAlloc = some wOut := by
    simp only [invF]
    rw [if_neg hssq]
    show some (runFgcr 2 5 wMat none wOneV (fun q => q) ((0 : ℚ) ^ 2 * norm2V wOneV)
        5 0 wS1R) = some wOut
    rw [show runFgcr 2 5 wMat none wOneV (fun q => q) ((0 : ℚ) ^ 2 * norm2V wOneV)
          5 0 wS1R
        = (0, (fgcrStep 2 5 wMat none wOneV (fun q => q) wRsq 0 wS1R).1) from
      runFgcr_halt 2 5 wMat none wOneV (fun q => q) wRsq 4 0 wS1R
        (by norm_num) hbd.1]
    rfl
  exact ⟨hout, hbd.2.1,
    fgcr_breakdown_history_length 2 5 wMat none wOneV (fun q => q) 0 wZeroV wAlloc
      wOut hout hbd.2.1⟩

/-- Claim C4: the setup of inv fails the assertion exactly when the source
norm and the initial residual norm are both zero; otherwise the main loop
runs against the target eps^2 * ||src||^2 when the source is nonzero, and
eps^2 * r2 (the initial residual norm squared) when the source is zero. -/
theorem fgcr_inv_setup {n : ℕ} (rlen maxiter : ℕ) (mat : Vec n → Vec n)
    (prec : Option (Vec n → Vec n)) (src : Vec n) (sqrtq : ℚ → ℚ) (eps : ℚ)
    (psi0 : Vec n) (alloc : FgcrState n) :
    (invF rlen maxiter mat prec src sqrtq eps psi0 alloc = none
      ↔ norm2V src = 0 ∧ norm2V (src - mat psi0) = 0)
    ∧ (norm2V src ≠ 0 →
        invF rlen maxiter mat prec src sqrtq eps psi0 alloc
          = some (runFgcr rlen maxiter mat prec src sqrtq
              (eps ^ 2 * norm2V src) maxiter 0
              (restartF rlen mat prec src (initS src psi0 alloc)).1))
    ∧ (norm2V src = 0 → norm2V (src - mat psi0) ≠ 0 →
        invF rlen maxiter mat prec src sqrtq eps psi0 alloc
          = some (runFgcr rlen maxiter mat prec src sqrtq
              (eps ^ 2 * norm2V (src - mat psi0)) maxiter 0
              (restartF rlen mat prec src (initS src psi0 alloc)).1)) := by
  have hr2 : (restartF rlen mat prec src (initS src psi0 alloc)).2
      = norm2V (src - mat psi0) :=
    restartF_snd rlen mat prec src (initS src psi0 alloc)
  refine ⟨⟨?_, ?_⟩, ?_, ?_⟩
  · intro h
    simp only [invF] at h
    split_ifs at h with h1 h2
    rw [hr2] at h2
    exact ⟨h1, h2⟩
  · rintro ⟨h1, h2⟩
    simp only [invF]
    rw [if_pos h1, if_pos (by rw [hr2]; exact h2)]
  · intro h1
    simp only [invF]
    rw [if_neg h1]
  · intro h1 h2
    simp only [invF]
    rw [if_pos h1, if_neg (by rw [hr2]; exact h2), hr2]

/-- Witness for claim C4: zero source with a nonzero initial guess under
the identity operator takes the r2-relative target branch. -/
theorem fgcr_inv_setup_witness :
    norm2V wZeroV = 0
    ∧ norm2V (wZeroV - wMatId wOneV) ≠ 0
    ∧ invF 2 5 wMatId none wZeroV (fun q => q) 0 wOneV wAlloc
        = some (runFgcr 2 5 wMatId none wZeroV (fun q => q)
            ((0 : ℚ) ^ 2 * norm2V (wZeroV - wMatId wOneV)) 5 0
            (restartF 2 wMatId none wZeroV (initS wZeroV wOneV wAlloc)).1) := by
  have h := fgcr_inv_setup 2 5 wMatId none wZeroV (fun q => q) 0 wOneV wAlloc
  have h1 : norm2V wZeroV = 0 := by
    norm_num [norm2V, wZeroV, Fin.sum_univ_one]
  have h2 : ¬norm2V (wZeroV - wMatId wOneV) = 0 := by
    norm_num [norm2V, wZeroV, wOneV, wMatId, Fin.sum_univ_one]
  exact ⟨h1, h2, h.2.2 h1 h2⟩

/-- Witness for claim C10: the concrete breakdown run stops in its first
cycle and leaves psi at its starting value. -/
theorem fgcr_breakdown_leaves_psi_witness :
    wS2.brk = none
    ∧ (runFgcr 2 5 wMat none wOneV (fun q => q) 0 5 0 wS2).2.brk
        = some BreakReason.breakdown
    ∧ (runFgcr 2 5 wMat none wOneV (fun q => q) 0 5 0 wS2).1 / 2 = 0 / 2
    ∧ (runFgcr 2 5 wMat none wOneV (fun q => q) 0 5 0 wS2).2.psi = wS2.psi := by
  have hbd := fgcrStep_breakdown 2 5 wMat none wOneV (fun q => q) 0 0 wS2
    (by simp [orthogonalizeF, norm2V, wMat, Fin.sum_univ_one])
  have hrun : runFgcr 2 5 wMat none wOneV (fun q => q) 0 5 0 wS2
      = (0, (fgcrStep 2 5 wMat none wOneV (fun q => q) 0 0 wS2).1) :=
    runFgcr_halt 2 5 wMat none wOneV (fun q => q) 0 4 0 wS2 (by norm_num) hbd.1
  have hb : (runFgcr 2 5 wMat none wOneV (fun q => q) 0 5 0 wS2).2.brk
      = some BreakReason.breakdown := by
    rw [hrun]
    exact hbd.2.1
  have hcy : (runFgcr 2 5 wMat none wOneV (fun q => q) 0 5 0 wS2).1 / 2 = 0 / 2 := by
    rw [hrun]
  exact ⟨rfl, hb, hcy,
    fgcr_breakdown_leaves_psi 2 5 wMat none wOneV (fun q => q) 0 5 0 wS2 rfl hb hcy⟩

/-- Witness for claim C1 at the concrete state wS1 with i = j = 1. -/
theorem fgcr_update_psi_back_substitution_witness :
    (1 : ℕ) ≤ 1
    ∧ (update_psiF wS1 1).psi
        = wS1.psi + ∑ m in Finset.range 2, (update_psiF wS1 1).delta m • wS1.p m
    ∧ (update_psiF wS1 1).delta 1
        = (wS1.alpha 1
            - ∑ l in Finset.Ioc 1 1, wS1.beta 1 l * (update_psiF wS1 1).delta l)
          / wS1.gamma 1 := by
  have h := fgcr_update_psi_back_substitution wS1 1 1 le_rfl
  exact ⟨le_rfl, h.1, h.2.1⟩

/-! ### Backward-link communication (claim C5) -/

/-- Full characterization of the comm_links loop for up to four forward
directions: it succeeds, preserves the length, writes slot start + idx + 4
with the transformed forward link read at start + idx, and leaves every
other slot unchanged. -/
lemma commLinksAux_ok (nbasis : ℕ) (hermitian : Bool) :
    ∀ (rest : List (ℕ × ℤ)) (start : ℕ) (A : List CMat),
      rest.length ≤ 4 → start + rest.length + 4 ≤ A.length →
      (hermitian = false → nbasis % 2 = 0) →
      ∃ A', commLinksAux nbasis hermitian start rest A = Except.ok A'
        ∧ A'.length = A.length
        ∧ (∀ j, j < start + 4 ∨ start + 4 + rest.length ≤ j →
            A'.get? j = A.get? j)
        ∧ (∀ idx mu fb, rest.get? idx = some (mu, fb) →
            ∀ Ap, A.get? (start + idx) = some Ap →
              A'.get? (start + idx + 4)
                = some (commTransform nbasis hermitian Ap mu fb)) := by
  intro rest
  induction rest with
  | nil =>
    intro start A _ _ _
    refine ⟨A, rfl, rfl, fun j _ => rfl, ?_⟩
    intro idx mu fb h
    cases idx <;> exact Option.noConfusion h
  | cons d tl ih =>
    rcases d with ⟨mu, fb⟩
    intro start A hlen hA hpar
    have htl3 : tl.length ≤ 3 := by
      simp only [List.length_cons] at hlen
      omega
    have hstart : start < A.length := by
      simp only [List.length_cons] at hA
      omega
    have hpother : start + 4 < A.length := by
      simp only [List.length_cons] at hA
      omega
    obtain ⟨Ap0, hAp0⟩ : ∃ x, A.get? start = some x := by
      rw [List.get?_eq_get hstart]
      exact ⟨_, rfl⟩
    have hAp0' : A[start]? = some Ap0 := by
      rw [← List.get?_eq_getElem?]
      exact hAp0
    have hstep : commLinksAux nbasis hermitian start ((mu, fb) :: tl) A
        = commLinksAux nbasis hermitian (start + 1) tl
            (A.set (start + 4) (commTransform nbasis hermitian Ap0 mu fb)) := by
      cases hermitian
      · have hp : nbasis % 2 = 0 := hpar rfl
        simp [commLinksAux, hAp0', commTransform, hp, hpother]
      · simp [commLinksAux, hAp0', commTransform, hpother]
    have hW : (A.set (start + 4) (commTransform nbasis hermitian Ap0 mu fb)).length
        = A.length := List.length_set A (start + 4) _
    obtain ⟨A', hok, hlen', hpres, hidx⟩ :=
      ih (start + 1) (A.set (start + 4) (commTransform nbasis hermitian Ap0 mu fb))
        (by omega)
        (by
          rw [hW]
          simp only [List.length_cons] at hA
          omega)
        hpar
    refine ⟨A', by rw [hstep]; exact hok, by rw [hlen', hW], ?_, ?_⟩
    · intro j hj
      have hne : start + 4 ≠ j := by
        rcases hj with hj | hj
        · omega
        · simp only [List.length_cons] at hj
          omega
      have hj1 : A'.get? j
          = (A.set (start + 4) (commTransform nbasis hermitian Ap0 mu fb)).get? j := by
        apply hpres
        rcases hj with hj | hj
        · exact Or.inl (by omega)
        · right
          simp only [List.length_cons] at hj
          omega
      rw [hj1, List.get?_set_ne _ _ hne]
    · intro idx mu1 fb1 hidx1 Ap hAp
      cases idx with
      | zero =>
        obtain ⟨hmu, hfb⟩ : mu = mu1 ∧ fb = fb1 := by simpa using hidx1
        subst hmu
        subst hfb
        have hApE : Ap0 = Ap :=
          Option.some.inj (hAp0.symm.trans (show A.get? start = some Ap from hAp))
        subst hApE
        have hv : A'.get? (start + 4)
            = (A.set (start + 4) (commTransform nbasis hermitian Ap0 mu fb)).get?
                (start + 4) :=
          hpres (start + 4) (Or.inl (by omega))
        rw [List.get?_set_eq_of_lt _ hpother] at hv
        exact hv
      | succ i =>
        have htlg : tl.get? i = some (mu1, fb1) := by simpa using hidx1
        have hi3 : i < tl.length := by
          by_contra hcon
          rw [List.get?_eq_none.mpr (Nat.le_of_not_lt hcon)] at htlg
          exact Option.noConfusion htlg
        have hne : start + 4 ≠ start + 1 + i := by omega
        have hAp2 : (A.set (start + 4) (commTransform nbasis hermitian Ap0 mu fb)).get?
            (start + 1 + i) = some Ap := by
          rw [List.get?_set_ne _ _ hne]
          rw [show start + 1 + i = start + (i + 1) from by omega]
          exact hAp
        have hfin := hidx i mu1 fb1 htlg Ap hAp2
        rw [show start + (i + 1) + 4 = start + 1 + i + 4 from by omega]
        exact hfin

/-- With an odd basis size and hermitian unset, the first loop iteration
of comm_links hits the nbasis % 2 == 0 assertion. -/
lemma commLinksAux_fail (nbasis : ℕ) (mu : ℕ) (fb : ℤ) (tl : List (ℕ × ℤ))
    (start : ℕ) (A : List CMat) (hodd : nbasis % 2 = 1)
    (hstart : start < A.length) :
    commLinksAux nbasis false start ((mu, fb) :: tl) A
      = Except.error CErr.assertFail := by
  obtain ⟨Ap0, hAp0⟩ : ∃ x, A.get? start = some x := by
    rw [List.get?_eq_get hstart]
    exact ⟨_, rfl⟩
  have hAp0' : A[start]? = some Ap0 := by
    rw [← List.get?_eq_getElem?]
    exact hAp0
  simp [commLinksAux, hAp0', hodd]

/-- Claim C5: under savelinks, for every forward direction index p with
direction mu and displacement fb, comm_links stores into A[p + 4] the
conjugate transpose of the fb * -1 shift of the forward link A[p], with
the two off-diagonal quadrant sign flips applied exactly once beforehand
when hermitian is false and no sign flip when hermitian is true (the
choice being the content of commTransform). -/
theorem coarse_comm_links_backward (nbasis : ℕ) (A : List CMat)
    (dd : List (ℕ × ℤ)) (hermitian : Bool) (p mu : ℕ) (fb : ℤ) (Ap : CMat)
    (hA : A.length = 9) (hdd : dd.length = 4)
    (hget : dd.get? p = some (mu, fb)) (hAp : A.get? p = some Ap)
    (hpar : hermitian = false → nbasis % 2 = 0) :
    (comm_linksM nbasis A dd hermitian).map (fun L => L.get? (p + 4))
      = Except.ok (some (commTransform nbasis hermitian Ap mu fb)) := by
  have hp4 : p < 4 := by
    by_contra hcon
    rw [List.get?_eq_none.mpr (by omega)] at hget
    exact Option.noConfusion hget
  obtain ⟨A', hok, _, _, hidx⟩ :=
    commLinksAux_ok nbasis hermitian dd 0 A (by omega) (by omega) hpar
  have hw := hidx p mu fb (by simpa using hget) Ap (by simpa using hAp)
  rw [comm_linksM, if_pos (by omega), hok]
  simp only [Except.map]
  rw [show p + 4 = 0 + p + 4 from by omega]
  rw [hw]

/-- Witness for claim C5: hermitian derivation of the backward link in
direction 0 on a concrete 9-entry link list. -/
theorem coarse_comm_links_backward_witness :
    wAList.length = 9
    ∧ (comm_linksM 2 wAList (dirdispsForward 4) true).map (fun L => L.get? 4)
        = Except.ok (some (commTransform 2 true (wCM 0) 0 1)) := by
  refine ⟨rfl, ?_⟩
  exact coarse_comm_links_backward 2 wAList (dirdispsForward 4) true 0 0 1 (wCM 0)
    rfl rfl rfl rfl (fun _ => rfl)

/-! ### Boundary masks (claim C9) -/

/-- On a 5-dimensional fine grid the mask loop runs over mu in
[1, 2, 3, 4] and writes dirmasks[mu + 4]; at mu = 4 it addresses index 8
of the 8-element dirmasks list and fails. -/
lemma buildDirmasks_5d (block : ℕ → ℤ) :
    buildDirmasks 5 block = Except.error CErr.indexErr := rfl

/-- On every non-5-dimensional fine grid the mask construction succeeds,
storing the forward-boundary mask of direction p at position p and the
backward-boundary mask of direction p - 4 at position p + 4. -/
lemma buildDirmasks_not5 (nd : ℕ) (block : ℕ → ℤ) (h : nd ≠ 5) :
    buildDirmasks nd block = Except.ok (dirmasksListOf block) := by
  simp only [buildDirmasks, dirdispsFull, dirsOf, if_neg h, dirmasksListOf]
  rfl

/-- The direction/displacement order of dirdisps_full on a non-5D grid:
forward hops at positions 0-3, backward hops at positions 4-7, matching
the successful mask layout of buildDirmasks_not5 position by position. -/
lemma dirdispsFull_not5 (nd : ℕ) (h : nd ≠ 5) :
    dirdispsFull nd
      = [(0, 1), (1, 1), (2, 1), (3, 1), (0, -1), (1, -1), (2, -1), (3, -1)] := by
  simp only [dirdispsFull, dirsOf, if_neg h]
  rfl

/-- The forward direction list on a non-5D grid. -/
lemma dirdispsForward_not5 (nd : ℕ) (h : nd ≠ 5) :
    dirdispsForward nd = [(0, 1), (1, 1), (2, 1), (3, 1)] := by
  simp only [dirdispsForward, dirsOf, if_neg h]
  rfl

/-- The forward direction list always has four entries. -/
lemma dirdispsForward_length (nd : ℕ) : (dirdispsForward nd).length = 4 := by
  simp only [dirdispsForward, dirsOf]
  split_ifs <;> rfl

/-- The full direction list always has eight entries. -/
lemma dirdispsFull_length (nd : ℕ) : (dirdispsFull nd).length = 8 := by
  simp only [dirdispsFull, dirsOf]
  split_ifs <;> rfl

/-- Claim C9 (evaluation of the code at the failing input): on a
5-dimensional fine grid — a configuration the direction selection
dirs = [1, 2, 3, 4] explicitly supports — the boundary-mask loop indexes
dirmasks[8] on the 8-element dirmasks list, so the construction aborts
with an index error instead of completing in bounds; the spec asserts it
completes for 5D grids as well. -/
theorem coarse_dirmasks_5d_index_error :
    ∀ block : ℕ → ℤ, buildDirmasks 5 block = Except.error CErr.indexErr :=
  fun block => buildDirmasks_5d block

/-! ### recreate_links (claim C8) -/

/-- Claim C8 (evaluation of the code): every call of
recreate_links(A, fmat, basis) raises TypeError at once, because its body
calls create_links(A, fmat, basis) and create_links requires the params
argument, for which no default exists; recreate_links therefore never
behaves as create_links with default parameters. -/
theorem coarse_recreate_links_type_error {Lut : Type} (ops : CoarsenOps Lut)
    (A : List CMat) (basis : List FField) :
    recreate_linksM ops A basis = Except.error CErr.typeErr := rfl

/-! ### Projection loops (claims C6 and C7) -/

/-- A successful column write, unfolded. -/
lemma setColE_ok (N : ℕ) (M : CMat) (i : ℕ) (v : CVec) (hi : i < N) :
    setColE N M i v
      = Except.ok (fun x r c => if c = i ∧ r < N then v x r else M x r c) := by
  rw [setColE, if_pos hi]

/-- One step of the mask-path inner loop. -/
lemma maskProjLoop_cons {Lut : Type} (ops : CoarsenOps Lut) (mk : MaskF)
    (Mvrp : FField) (i N j0 : ℕ) (vl : FField) (rest : List FField) (Ap : CMat)
    (h : j0 < N ∧ i < N) :
    maskProjLoop ops mk Mvrp i N j0 (vl :: rest) Ap
      = maskProjLoop ops mk Mvrp i N (j0 + 1) rest
          (fun x r c =>
            if r = j0 ∧ c = i then ops.maskedInner mk vl Mvrp x else Ap x r c) := by
  rw [maskProjLoop, setEntryE, if_pos h]
  rfl

/-- Full characterization of the mask-path inner loop: it writes one row
per left basis vector into column i. -/
lemma maskProjLoop_ok {Lut : Type} (ops : CoarsenOps Lut) (mk : MaskF)
    (Mvrp : FField) (i N : ℕ) (hi : i < N) :
    ∀ (bs : List FField) (j0 : ℕ) (Ap : CMat), j0 + bs.length ≤ N →
      maskProjLoop ops mk Mvrp i N j0 bs Ap
        = Except.ok (fun x r c =>
            if c = i ∧ j0 ≤ r ∧ r < j0 + bs.length
            then ops.maskedInner mk (bs.getD (r - j0) zeroF) Mvrp x
            else Ap x r c) := by
  intro bs
  induction bs with
  | nil =>
    intro j0 Ap _
    rw [maskProjLoop]
    congr 1
    funext x r c
    simp only [List.length_nil, Nat.add_zero]
    rw [if_neg (by omega)]
  | cons vl rest ih =>
    intro j0 Ap hlen
    have hj0 : j0 < N := by
      simp only [List.length_cons] at hlen
      omega
    rw [maskProjLoop_cons ops mk Mvrp i N j0 vl rest Ap ⟨hj0, hi⟩,
      ih (j0 + 1) _ (by simp only [List.length_cons] at hlen; omega)]
    congr 1
    funext x r c
    by_cases hc : c = i
    · subst hc
      by_cases hr0 : r = j0
      · subst hr0
        rw [if_neg (by rintro ⟨-, h2, -⟩; omega), if_pos ⟨rfl, rfl⟩,
          if_pos ⟨rfl, le_rfl, by simp only [List.length_cons]; omega⟩]
        simp only [Nat.sub_self, List.getD_cons_zero]
      · by_cases hr1 : j0 + 1 ≤ r ∧ r < j0 + 1 + rest.length
        · rw [if_pos ⟨rfl, hr1.1, hr1.2⟩,
            if_pos ⟨rfl, by omega, by simp only [List.length_cons]; omega⟩]
          have hsub : r - j0 = (r - (j0 + 1)) + 1 := by omega
          rw [hsub, List.getD_cons_succ]
        · rw [if_neg (by rintro ⟨-, h2, h3⟩; exact hr1 ⟨h2, h3⟩),
            if_neg (by rintro ⟨h2, -⟩; exact hr0 h2),
            if_neg (by
              rintro ⟨-, h2, h3⟩
              simp only [List.length_cons] at h3
              exact hr1 ⟨by omega, by omega⟩)]
    · rw [if_neg (by rintro ⟨h1, -⟩; exact hc h1),
        if_neg (by rintro ⟨-, h1⟩; exact hc h1),
        if_neg (by rintro ⟨h1, -⟩; exact hc h1)]

/-- The mask path over the full basis writes exactly the column that the
lut path writes, when the two projection primitives agree row by row. -/
lemma maskProj_eq_setCol {Lut : Type} (ops : CoarsenOps Lut)
    (basis : List FField) (N : ℕ) (hN : N = basis.length) (mk : MaskF)
    (Mvrp : FField) (i : ℕ) (hi : i < N) (v : CVec)
    (hv : ∀ x j, j < basis.length →
      v x j = ops.maskedInner mk (basis.getD j zeroF) Mvrp x) (Ap : CMat) :
    setColE N Ap i v = maskProjLoop ops mk Mvrp i N 0 basis Ap := by
  subst hN
  rw [setColE_ok _ Ap i v hi,
    maskProjLoop_ok ops mk Mvrp i basis.length hi basis 0 Ap (by omega)]
  congr 1
  funext x r c
  by_cases hc : c = i ∧ r < basis.length
  · rw [if_pos hc, if_pos ⟨hc.1, by omega, by omega⟩]
    exact hv x r hc.2
  · rw [if_neg hc, if_neg (by
      rintro ⟨h1, -, h3⟩
      exact hc ⟨h1, by omega⟩)]

/-- Bind of a successful Except value. -/
lemma okBindE {α β : Type} (a : α) (f : α → Except CErr β) :
    (Except.ok a >>= f) = f a := rfl

/-- One step of the direction loop on the lut path. -/
lemma dirLoop_cons_lut {Lut : Type} (ops : CoarsenOps Lut) (N : ℕ)
    (basis : List FField) (i : ℕ) (luts : List Lut) (dirmasks : List MaskF)
    (Mvr : List FField) (p : ℕ) (d : ℕ × ℤ) (rest : List (ℕ × ℤ))
    (A : List CMat) (Ap : CMat) (Mvrp : FField) (lutp : Lut)
    (hA : A.get? p = some Ap) (hM : Mvr.get? p = some Mvrp)
    (hlut : luts.get? p = some lutp) :
    dirLoop ops true N basis i luts dirmasks Mvr p (d :: rest) A
      = (setColE N Ap i (ops.projectLut basis lutp Mvrp) >>= fun Ap1 =>
          dirLoop ops true N basis i luts dirmasks Mvr (p + 1) rest (A.set p Ap1)) := by
  simp only [dirLoop, hA, hM, hlut]
  rfl

/-- One step of the direction loop on the mask path. -/
lemma dirLoop_cons_mask {Lut : Type} (ops : CoarsenOps Lut) (N : ℕ)
    (basis : List FField) (i : ℕ) (luts : List Lut) (dirmasks : List MaskF)
    (Mvr : List FField) (p : ℕ) (d : ℕ × ℤ) (rest : List (ℕ × ℤ))
    (A : List CMat) (Ap : CMat) (Mvrp : FField) (mk : MaskF)
    (hA : A.get? p = some Ap) (hM : Mvr.get? p = some Mvrp)
    (hmk : dirmasks.get? p = some mk) :
    dirLoop ops false N basis i luts dirmasks Mvr p (d :: rest) A
      = (maskProjLoop ops mk Mvrp i N 0 basis Ap >>= fun Ap1 =>
          dirLoop ops false N basis i luts dirmasks Mvr (p + 1) rest (A.set p Ap1)) := by
  simp only [dirLoop, hA, hM, hmk]
  rfl

/-- The lut path and the mask path of the direction loop produce the same
outcome when project_using_lut with a lookup table built from a mask
agrees row by row with the masked inner products over that mask. -/
lemma dirLoop_eq {Lut : Type} (ops : CoarsenOps Lut) (N : ℕ)
    (basis : List FField) (i : ℕ) (luts lutsF : List Lut)
    (dirmasks : List MaskF) (Mvr : List FField)
    (hN : N = basis.length) (hi : i < N)
    (h1 : ∀ (m : MaskF) (v : FField) (x : Site) (j : ℕ), j < basis.length →
      ops.projectLut basis (ops.mkLut m) v x j
        = ops.maskedInner m (basis.getD j zeroF) v x) :
    ∀ (rest : List (ℕ × ℤ)) (p : ℕ) (A : List CMat),
      (∀ q, p ≤ q → q < p + rest.length →
        ∃ m, dirmasks.get? q = some m ∧ luts.get? q = some (ops.mkLut m)) →
      dirLoop ops true N basis i luts dirmasks Mvr p rest A
        = dirLoop ops false N basis i lutsF dirmasks Mvr p rest A := by
  intro rest
  induction rest with
  | nil => intro p A _; rfl
  | cons d tl ih =>
    intro p A hq
    obtain ⟨m, hm, hlut⟩ := hq p le_rfl (by simp only [List.length_cons]; omega)
    rcases hA : A.get? p with _ | Ap
    · simp only [dirLoop, hA]
    · rcases hM : Mvr.get? p with _ | Mvrp
      · simp only [dirLoop, hA, hM]
      · rw [dirLoop_cons_lut ops N basis i luts dirmasks Mvr p d tl A Ap Mvrp _ hA hM hlut,
          dirLoop_cons_mask ops N basis i lutsF dirmasks Mvr p d tl A Ap Mvrp m hA hM hm,
          ← maskProj_eq_setCol ops basis N hN m Mvrp i hi
            (ops.projectLut basis (ops.mkLut m) Mvrp)
            (fun x j hj => h1 m Mvrp x j hj) Ap,
          setColE_ok N Ap i _ hi]
        simp only [okBindE]
        exact ih (p + 1) _ (fun q hq1 hq2 =>
          hq q (by omega) (by simp only [List.length_cons]; omega))

/-- The direction loop succeeds and preserves the link-list length when
every index it touches is in range. -/
lemma dirLoop_ok {Lut : Type} (ops : CoarsenOps Lut) (u : Bool) (N : ℕ)
    (basis : List FField) (i : ℕ) (luts : List Lut) (dirmasks : List MaskF)
    (Mvr : List FField) (hi : i < N) (hb : basis.length ≤ N) :
    ∀ (rest : List (ℕ × ℤ)) (p : ℕ) (A : List CMat),
      p + rest.length ≤ A.length →
      p + rest.length ≤ Mvr.length →
      (u = true → p + rest.length ≤ luts.length) →
      (u = false → p + rest.length ≤ dirmasks.length) →
      ∃ A1, dirLoop ops u N basis i luts dirmasks Mvr p rest A = Except.ok A1
        ∧ A1.length = A.length := by
  intro rest
  induction rest with
  | nil => intro p A _ _ _ _; exact ⟨A, rfl, rfl⟩
  | cons d tl ih =>
    intro p A hA hM hl hd2
    have hpA : p < A.length := by simp only [List.length_cons] at hA; omega
    have hpM : p < Mvr.length := by simp only [List.length_cons] at hM; omega
    obtain ⟨Ap, hAp⟩ : ∃ x, A.get? p = some x := by
      rw [List.get?_eq_get hpA]; exact ⟨_, rfl⟩
    obtain ⟨Mvrp, hMvrp⟩ : ∃ x, Mvr.get? p = some x := by
      rw [List.get?_eq_get hpM]; exact ⟨_, rfl⟩
    cases u with
    | true =>
      have hpl : p < luts.length := by
        have := hl rfl
        simp only [List.length_cons] at this
        omega
      obtain ⟨lutp, hlutp⟩ : ∃ x, luts.get? p = some x := by
        rw [List.get?_eq_get hpl]; exact ⟨_, rfl⟩
      have e : dirLoop ops true N basis i luts dirmasks Mvr p (d :: tl) A
          = dirLoop ops true N basis i luts dirmasks Mvr (p + 1) tl
              (A.set p (fun x r c =>
                if c = i ∧ r < N then ops.projectLut basis lutp Mvrp x r
                else Ap x r c)) := by
        rw [dirLoop_cons_lut ops N basis i luts dirmasks Mvr p d tl A Ap Mvrp lutp
          hAp hMvrp hlutp, setColE_ok N Ap i _ hi]
        simp only [okBindE]
      obtain ⟨A1, hok, hlen⟩ := ih (p + 1)
        (A.set p (fun x r c =>
          if c = i ∧ r < N then ops.projectLut basis lutp Mvrp x r
          else Ap x r c))
        (by rw [List.length_set]; simp only [List.length_cons] at hA; omega)
        (by simp only [List.length_cons] at hM; omega)
        (fun hu => by have := hl hu; simp only [List.length_cons] at this; omega)
        (fun hu => by have := hd2 hu; simp only [List.length_cons] at this; omega)
      exact ⟨A1, e.trans hok, by rw [hlen, List.length_set]⟩
    | false =>
      have hpd : p < dirmasks.length := by
        have := hd2 rfl
        simp only [List.length_cons] at this
        omega
      obtain ⟨mk, hmk⟩ : ∃ x, dirmasks.get? p = some x := by
        rw [List.get?_eq_get hpd]; exact ⟨_, rfl⟩
      have e : dirLoop ops false N basis i luts dirmasks Mvr p (d :: tl) A
          = dirLoop ops false N basis i luts dirmasks Mvr (p + 1) tl
              (A.set p (fun x r c =>
                if c = i ∧ 0 ≤ r ∧ r < 0 + basis.length
                then ops.maskedInner mk (basis.getD (r - 0) zeroF) Mvrp x
                else Ap x r c)) := by
        rw [dirLoop_cons_mask ops N basis i luts dirmasks Mvr p d tl A Ap Mvrp mk
          hAp hMvrp hmk,
          maskProjLoop_ok ops mk Mvrp i N hi basis 0 Ap (by omega)]
        simp only [okBindE]
      obtain ⟨A1, hok, hlen⟩ := ih (p + 1)
        (A.set p (fun x r c =>
          if c = i ∧ 0 ≤ r ∧ r < 0 + basis.length
          then ops.maskedInner mk (basis.getD (r - 0) zeroF) Mvrp x
          else Ap x r c))
        (by rw [List.length_set]; simp only [List.length_cons] at hA; omega)
        (by simp only [List.length_cons] at hM; omega)
        (fun hu => by have := hl hu; simp only [List.length_cons] at this; omega)
        (fun hu => by have := hd2 hu; simp only [List.length_cons] at this; omega)
      exact ⟨A1, e.trans hok, by rw [hlen, List.length_set]⟩

/-- buildLuts succeeds when every direction index is inside dirmasks. -/
lemma buildLuts_ok {Lut : Type} (ops : CoarsenOps Lut) (dirmasks : List MaskF)
    (ndd : ℕ) (h : ndd ≤ dirmasks.length) :
    buildLuts ops dirmasks ndd = Except.ok ((dirmasks.take ndd).map ops.mkLut) := by
  rw [buildLuts, if_pos h]

/-- The lookup table stored at position q is the one built from the mask
stored at position q. -/
lemma buildLuts_get {Lut : Type} (ops : CoarsenOps Lut) (dirmasks : List MaskF)
    (ndd q : ℕ) (hq : q < ndd) (hlen : ndd ≤ dirmasks.length) :
    ∃ m, dirmasks.get? q = some m
      ∧ ((dirmasks.take ndd).map ops.mkLut).get? q = some (ops.mkLut m) := by
  have hql : q < dirmasks.length := lt_of_lt_of_le hq hlen
  obtain ⟨m, hm⟩ : ∃ x, dirmasks.get? q = some x := by
    rw [List.get?_eq_get hql]; exact ⟨_, rfl⟩
  refine ⟨m, hm, ?_⟩
  rw [List.get?_map, List.get?_take hq, hm]
  rfl

/-- The per-basis-vector loop produces the same outcome on the lut path
and on the mask path, given the agreement hypotheses on the projection
primitives. -/
lemma basisLoop_eq {Lut : Type} (ops : CoarsenOps Lut) (N : ℕ)
    (basis : List FField) (dirdisps : List (ℕ × ℤ)) (luts lutsF : List Lut)
    (dirmasks : List MaskF) (em om : MaskF)
    (hN : N = basis.length)
    (h1 : ∀ (m : MaskF) (v : FField) (x : Site) (j : ℕ), j < basis.length →
      ops.projectLut basis (ops.mkLut m) v x j
        = ops.maskedInner m (basis.getD j zeroF) v x)
    (h2 : ∀ v, ops.projectLut basis (ops.mkLut onemaskM) v = ops.project basis v)
    (hq : ∀ q, q < dirdisps.length →
      ∃ m, dirmasks.get? q = some m ∧ luts.get? q = some (ops.mkLut m)) :
    ∀ (rest : List FField) (i : ℕ) (A : List CMat),
      i + rest.length ≤ basis.length →
      basisLoop ops true N basis dirdisps luts (ops.mkLut onemaskM) dirmasks em om
          i rest A
        = basisLoop ops false N basis dirdisps lutsF (ops.mkLut onemaskM) dirmasks
            em om i rest A := by
  intro rest
  induction rest with
  | nil => intro i A _; rfl
  | cons vr tl ih =>
    intro i A hrange
    have hiN : i < N := by
      rw [hN]
      simp only [List.length_cons] at hrange
      omega
    simp only [basisLoop]
    rw [dirLoop_eq ops N basis i luts lutsF dirmasks
      (List.map (fun d => ops.Mdir d.1 d.2 vr) dirdisps) hN hiN h1 dirdisps 0 A
      (fun q _ hq2 => hq q (by omega))]
    rcases hres : dirLoop ops false N basis i lutsF dirmasks
        (List.map (fun d => ops.Mdir d.1 d.2 vr) dirdisps) 0 dirdisps A with e | A1
    · rw [hres]
      rfl
    · rw [hres]
      simp only [okBindE]
      cases hA8 : A1.get? 8 with
      | none => simp only [hA8]
      | some As =>
        simp only [hA8]
        rw [h2]
        rw [setColE_ok N As i _ hiN, setColE_ok N As i _ hiN]
        simp only [okBindE]
        exact ih (i + 1) _ (by simp only [List.length_cons] at hrange; omega)

/-- The per-basis-vector loop succeeds and preserves the link-list length
when the pre-allocated link list has room for all direction slots and the
self slot, and the otype extent covers the basis. -/
lemma basisLoop_ok {Lut : Type} (ops : CoarsenOps Lut) (u : Bool) (N : ℕ)
    (basis : List FField) (dirdisps : List (ℕ × ℤ)) (luts : List Lut)
    (fullut : Lut) (dirmasks : List MaskF) (em om : MaskF)
    (hb : basis.length ≤ N)
    (hlut : u = true → dirdisps.length ≤ luts.length)
    (hmask : u = false → dirdisps.length ≤ dirmasks.length) :
    ∀ (rest : List FField) (i : ℕ) (A : List CMat),
      i + rest.length ≤ basis.length →
      dirdisps.length ≤ A.length → 8 < A.length →
      ∃ A2, basisLoop ops u N basis dirdisps luts fullut dirmasks em om i rest A
          = Except.ok A2
        ∧ A2.length = A.length := by
  intro rest
  induction rest with
  | nil => intro i A _ _ _; exact ⟨A, rfl, rfl⟩
  | cons vr tl ih =>
    intro i A hrange hdd h8
    have hiN : i < N := by
      simp only [List.length_cons] at hrange
      omega
    obtain ⟨A1, hok1, hlen1⟩ :=
      dirLoop_ok ops u N basis i luts dirmasks
        (List.map (fun d => ops.Mdir d.1 d.2 vr) dirdisps) hiN hb dirdisps 0 A
        (by omega)
        (by rw [List.length_map]; omega)
        (fun hu => by have := hlut hu; omega)
        (fun hu => by have := hmask hu; omega)
    have h81 : 8 < A1.length := by rw [hlen1]; exact h8
    obtain ⟨As, hAs⟩ : ∃ x, A1.get? 8 = some x := by
      rw [List.get?_eq_get h81]; exact ⟨_, rfl⟩
    have estep : basisLoop ops u N basis dirdisps luts fullut dirmasks em om
          i (vr :: tl) A
        = basisLoop ops u N basis dirdisps luts fullut dirmasks em om (i + 1) tl
            (A1.set 8 (fun x r c =>
              if c = i ∧ r < N
              then (if u then ops.projectLut basis fullut
                      (addF (maskMul em (ops.fapply (maskMul em vr)))
                        (maskMul om (ops.fapply (maskMul om vr))))
                    else ops.project basis
                      (addF (maskMul em (ops.fapply (maskMul em vr)))
                        (maskMul om (ops.fapply (maskMul om vr))))) x r
              else As x r c)) := by
      simp only [basisLoop]
      rw [hok1]
      simp only [okBindE, hAs]
      rw [setColE_ok N As i _ hiN]
      simp only [okBindE]
    obtain ⟨A2, hok2, hlen2⟩ := ih (i + 1)
      (A1.set 8 (fun x r c =>
        if c = i ∧ r < N
        then (if u then ops.projectLut basis fullut
                (addF (maskMul em (ops.fapply (maskMul em vr)))
                  (maskMul om (ops.fapply (maskMul om vr))))
              else ops.project basis
                (addF (maskMul em (ops.fapply (maskMul em vr)))
                  (maskMul om (ops.fapply (maskMul om vr))))) x r
        else As x r c))
      (by simp only [List.length_cons] at hrange; omega)
      (by rw [List.length_set, hlen1]; omega)
      (by rw [List.length_set, hlen1]; omega)
    exact ⟨A2, estep.trans hok2, by rw [hlen2, List.length_set, hlen1]⟩

/-- The dirmasks list of a non-5D run has eight entries. -/
lemma dirmasksListOf_length (block : ℕ → ℤ) : (dirmasksListOf block).length = 8 := rfl

/-- On a valid non-5D configuration with a 9-slot link list, create_links
runs its whole projection phase successfully and ends with the comm_links
pass exactly when savelinks is set. -/
lemma createLinks_run {Lut : Type} (ops : CoarsenOps Lut) (A : List CMat)
    (basis : List FField) (nd : ℕ) (block : ℕ → ℤ) (nbasis : ℕ)
    (h s u : Bool) (hherm : (h && !s) = false)
    (hnd : nd ≠ 5) (hA : A.length = 9) (hN : basis.length ≤ nbasis) :
    ∃ A1, A1.length = 9
      ∧ createLinksM ops A basis nd block nbasis ⟨h, s, u⟩
          = if s then comm_linksM nbasis A1 (dirdispsForward nd) h
            else Except.ok A1 := by
  have hddlen : (if s then dirdispsForward nd else dirdispsFull nd).length ≤ 8 := by
    cases s <;> simp [dirdispsForward_length, dirdispsFull_length]
  simp only [createLinksM]
  rw [if_neg (by simp [hherm])]
  rw [buildDirmasks_not5 nd block hnd]
  simp only [okBindE]
  cases u with
  | false =>
    rw [if_neg (by simp)]
    obtain ⟨A1, hok, hlen⟩ := basisLoop_ok ops false nbasis basis
      (if s then dirdispsForward nd else dirdispsFull nd) []
      (ops.mkLut onemaskM) (dirmasksListOf block) (evenMaskM nd block)
      (fun x => !evenMaskM nd block x) hN
      (fun hu => Bool.noConfusion hu)
      (fun _ => by rw [dirmasksListOf_length]; exact hddlen)
      basis 0 A (by omega) (by omega) (by omega)
    rw [hok]
    simp only [okBindE]
    exact ⟨A1, by rw [hlen, hA], rfl⟩
  | true =>
    rw [if_pos rfl]
    rw [buildLuts_ok ops (dirmasksListOf block) _
      (by rw [dirmasksListOf_length]; exact hddlen)]
    simp only [okBindE]
    obtain ⟨A1, hok, hlen⟩ := basisLoop_ok ops true nbasis basis
      (if s then dirdispsForward nd else dirdispsFull nd)
      (((dirmasksListOf block).take
          (if s then dirdispsForward nd else dirdispsFull nd).length).map ops.mkLut)
      (ops.mkLut onemaskM) (dirmasksListOf block) (evenMaskM nd block)
      (fun x => !evenMaskM nd block x) hN
      (fun _ => by
        rw [List.length_map, List.length_take, dirmasksListOf_length]
        omega)
      (fun hu => Bool.noConfusion hu)
      basis 0 A (by omega) (by omega) (by omega)
    rw [hok]
    simp only [okBindE]
    exact ⟨A1, by rw [hlen, hA], rfl⟩

/-- Claim C7 counterexample: with hermitian unset, savelinks unset and an
odd basis extent (nbasis = 1), create_links completes successfully — the
parity assertion lives in comm_links, which only runs when savelinks is
set — so the claim that every hermitian-unset odd-nbasis call asserts is
false on this input. -/
theorem coarse_create_links_claim_false :
    createLinksM wOps wAList wBasis 4 wBlock 1 ⟨false, false, false⟩
      ≠ Except.error CErr.assertFail := by
  have hok : okE (createLinksM wOps wAList wBasis 4 wBlock 1 ⟨false, false, false⟩)
      = true := rfl
  intro h
  rw [h] at hok
  simp [okE] at hok

/-- Claim C7 (amended): on a non-5D grid with a correctly sized link list
and matching basis extent, create_links stops with an assertion failure
exactly when hermitian is set without savelinks (the entry assertion), or
when hermitian is unset, savelinks is set and nbasis is odd (the parity
assertion inside comm_links); no other parameter combination trips an
assertion. -/
theorem coarse_create_links_assert_iff {Lut : Type} (ops : CoarsenOps Lut)
    (A : List CMat) (basis : List FField) (nd : ℕ) (block : ℕ → ℤ)
    (nbasis : ℕ) (params : CoarseParams)
    (hnd : nd ≠ 5) (hA : A.length = 9) (hN : nbasis = basis.length) :
    createLinksM ops A basis nd block nbasis params = Except.error CErr.assertFail
      ↔ ((params.hermitian = true ∧ params.savelinks = false)
        ∨ (params.hermitian = false ∧ params.savelinks = true ∧ nbasis % 2 = 1)) := by
  rcases params with ⟨h, s, u⟩
  cases h with
  | true =>
    cases s with
    | false =>
      exact ⟨fun _ => Or.inl ⟨rfl, rfl⟩, fun _ => rfl⟩
    | true =>
      obtain ⟨A1, hlen1, hrun⟩ := createLinks_run ops A basis nd block nbasis
        true true u rfl hnd hA (le_of_eq hN.symm)
      obtain ⟨A2, hok2, -, -, -⟩ := commLinksAux_ok nbasis true (dirdispsForward nd)
        0 A1 (by rw [dirdispsForward_length]) (by rw [dirdispsForward_length, hlen1]; omega)
        (fun hx => Bool.noConfusion hx)
      refine ⟨fun heq => ?_, fun hr => ?_⟩
      · rw [hrun] at heq
        have hcm : comm_linksM nbasis A1 (dirdispsForward nd) true
            = Except.error CErr.assertFail := heq
        rw [comm_linksM, if_pos (by rw [hlen1, dirdispsForward_length]), hok2] at hcm
        exact Except.noConfusion hcm
      · rcases hr with ⟨-, h2⟩ | ⟨h1, -⟩
        · exact Bool.noConfusion h2
        · exact Bool.noConfusion h1
  | false =>
    cases s with
    | false =>
      obtain ⟨A1, hlen1, hrun⟩ := createLinks_run ops A basis nd block nbasis
        false false u rfl hnd hA (le_of_eq hN.symm)
      refine ⟨fun heq => ?_, fun hr => ?_⟩
      · rw [hrun] at heq
        exact Except.noConfusion
          (show Except.ok A1 = Except.error CErr.assertFail from heq)
      · rcases hr with ⟨h1, -⟩ | ⟨-, h2, -⟩
        · exact Bool.noConfusion h1
        · exact Bool.noConfusion h2
    | true =>
      obtain ⟨A1, hlen1, hrun⟩ := createLinks_run ops A basis nd block nbasis
        false true u rfl hnd hA (le_of_eq hN.symm)
      by_cases hpar : nbasis % 2 = 0
      · obtain ⟨A2, hok2, -, -, -⟩ := commLinksAux_ok nbasis false
          (dirdispsForward nd) 0 A1 (by rw [dirdispsForward_length])
          (by rw [dirdispsForward_length, hlen1]; omega) (fun _ => hpar)
        refine ⟨fun heq => ?_, fun hr => ?_⟩
        · rw [hrun] at heq
          have hcm : comm_linksM nbasis A1 (dirdispsForward nd) false
              = Except.error CErr.assertFail := heq
          rw [comm_linksM, if_pos (by rw [hlen1, dirdispsForward_length]), hok2] at hcm
          exact Except.noConfusion hcm
        · rcases hr with ⟨h1, -⟩ | ⟨-, -, h2⟩
          · exact Bool.noConfusion h1
          · omega
      · have hodd : nbasis % 2 = 1 := by omega
        have hfail : comm_linksM nbasis A1 (dirdispsForward nd) false
            = Except.error CErr.assertFail := by
          rw [comm_linksM, if_pos (by rw [hlen1, dirdispsForward_length]),
            dirdispsForward_not5 nd hnd]
          exact commLinksAux_fail nbasis 0 1 _ 0 A1 hodd (by rw [hlen1]; omega)
        refine ⟨fun _ => Or.inr ⟨rfl, rfl, hodd⟩, fun _ => ?_⟩
        rw [hrun]
        exact hfail

/-- Claim C6: with the basis extent matching nbasis, and under the stated
agreement hypotheses on the externally supplied projection primitives —
a lookup table built from a mask projects like the masked inner product
over that mask, and the full-mask table projects like plain project —
create_links with uselut true and with uselut false produce identical
outcomes for the same A, basis, hermitian and savelinks settings. -/
theorem coarse_create_links_lut_equiv {Lut : Type} (ops : CoarsenOps Lut)
    (A : List CMat) (basis : List FField) (nd : ℕ) (block : ℕ → ℤ)
    (nbasis : ℕ) (herm save : Bool)
    (hN : nbasis = basis.length)
    (h1 : ∀ (m : MaskF) (v : FField) (x : Site) (j : ℕ), j < basis.length →
      ops.projectLut basis (ops.mkLut m) v x j
        = ops.maskedInner m (basis.getD j zeroF) v x)
    (h2 : ∀ v, ops.projectLut basis (ops.mkLut onemaskM) v = ops.project basis v) :
    createLinksM ops A basis nd block nbasis ⟨herm, save, true⟩
      = createLinksM ops A basis nd block nbasis ⟨herm, save, false⟩ := by
  by_cases hherm : (herm && !save) = true
  · simp only [createLinksM]
    rw [if_pos hherm, if_pos hherm]
  · simp only [createLinksM]
    rw [if_neg hherm, if_neg hherm]
    by_cases hnd : nd = 5
    · subst hnd
      rw [buildDirmasks_5d block]
      rfl
    · rw [buildDirmasks_not5 nd block hnd]
      simp only [okBindE]
      have hddlen : (if save = true then dirdispsForward nd else dirdispsFull nd).length
          ≤ (dirmasksListOf block).length := by
        rw [dirmasksListOf_length]
        cases save <;> simp [dirdispsForward_length, dirdispsFull_length]
      have hq : ∀ q,
          q < (if save = true then dirdispsForward nd else dirdispsFull nd).length →
          ∃ m, (dirmasksListOf block).get? q = some m
            ∧ (((dirmasksListOf block).take
                  (if save = true then dirdispsForward nd
                    else dirdispsFull nd).length).map ops.mkLut).get? q
              = some (ops.mkLut m) :=
        fun q hql => buildLuts_get ops (dirmasksListOf block) _ q hql hddlen
      rw [if_pos trivial]
      rw [buildLuts_ok ops (dirmasksListOf block) _ hddlen]
      rw [if_neg (show ¬(false = true) from by simp)]
      simp only [okBindE]
      rw [basisLoop_eq ops nbasis basis
        (if save = true then dirdispsForward nd else dirdispsFull nd)
        (((dirmasksListOf block).take
            (if save = true then dirdispsForward nd
              else dirdispsFull nd).length).map ops.mkLut)
        [] (dirmasksListOf block) (evenMaskM nd block)
        (fun x => !evenMaskM nd block x) hN h1 h2 hq basis 0 A (by omega)]

/-- Witness for claim C6: on a concrete one-vector basis with the
transparent primitive instance, both paths of create_links agree; the
agreement hypotheses hold definitionally there. -/
theorem coarse_create_links_lut_equiv_witness :
    (1 : ℕ) = wBasis.length
    ∧ createLinksM wOps wAList wBasis 4 wBlock 1 ⟨false, true, true⟩
        = createLinksM wOps wAList wBasis 4 wBlock 1 ⟨false, true, false⟩ :=
  ⟨rfl, coarse_create_links_lut_equiv wOps wAList wBasis 4 wBlock 1 false true rfl
    (fun _ _ _ _ _ => rfl) (fun _ => rfl)⟩

/-- Witness for the amended claim C7: the hermitian-without-savelinks
combination trips the entry assertion on a concrete configuration. -/
theorem coarse_create_links_assert_iff_witness :
    (4 : ℕ) ≠ 5 ∧ wAList.length = 9 ∧ (1 : ℕ) = wBasis.length
    ∧ createLinksM wOps wAList wBasis 4 wBlock 1 ⟨true, false, false⟩
        = Except.error CErr.assertFail := by
  refine ⟨by omega, rfl, rfl, ?_⟩
  exact (coarse_create_links_assert_iff wOps wAList wBasis 4 wBlock 1
    ⟨true, false, false⟩ (by omega) rfl rfl).mpr (Or.inl ⟨rfl, rfl⟩)

end GptModel
